import Mathlib

/-!
Verification of the core editing engine of the `editor-demo` repository.

The definitions below are a shallow embedding of the C++ sources:
  * `PieceTable`  — src/src/piece_table.cpp, src/include/piece_table.h
  * `UndoManager` — src/src/undo_manager.cpp, src/include/undo_manager.h
  * `FindDialog`  — src/src/find_dialog.cpp
  * wildcard glob filter and multi-cursor insertion — src/src/gui_main.cpp
  * `TabManager`  — src/include/tab_manager.h

Strings are modelled as `List Char`; `size_t` values as `Nat`.  The mutable
line cache of the piece table (`line_cache_`, `line_cache_valid_`) is a
memoisation of derived data and is not part of the logical state; it is not
modelled.  Statements about buffer contents are phrased via `docText`, the
concatenation of the pieces' referenced bytes.
-/

namespace EditorDemo

/-- `Piece::Source` from piece_table.h. -/
inductive Source where
  | ORIGINAL : Source
  | ADD : Source
deriving DecidableEq, Repr

/-- `struct Piece` from piece_table.h: a slice of one of the two buffers. -/
structure Piece where
  source : Source
  offset : Nat
  length : Nat
deriving DecidableEq, Repr

/-- The logical state of `class PieceTable` (caches omitted). -/
structure PieceTable where
  pieces : List Piece
  original_buffer : List Char
  add_buffer : List Char
deriving DecidableEq, Repr

/-- The buffer a piece refers to. -/
def Piece.buf (p : Piece) (orig add : List Char) : List Char :=
  match p.source with
  | Source.ORIGINAL => orig
  | Source.ADD => add

/-- The bytes a single piece denotes (`source.substr(offset, length)`). -/
def Piece.text (p : Piece) (orig add : List Char) : List Char :=
  ((p.buf orig add).drop p.offset).take p.length

/-- Concatenation of a piece list's bytes. -/
def piecesText (orig add : List Char) : List Piece → List Char
  | [] => []
  | p :: rest => p.text orig add ++ piecesText orig add rest

/-- The logical document: concatenation of the pieces in order. -/
def PieceTable.docText (pt : PieceTable) : List Char :=
  piecesText pt.original_buffer pt.add_buffer pt.pieces

/-- A piece indexes valid bytes of its origin buffer (spec §3 invariant (ii)). -/
def Piece.InBounds (p : Piece) (orig add : List Char) : Prop :=
  p.offset + p.length ≤ (p.buf orig add).length

/-- Well-formedness of a piece table: every piece is in bounds. -/
def PieceTable.WF (pt : PieceTable) : Prop :=
  ∀ p ∈ pt.pieces, p.InBounds pt.original_buffer pt.add_buffer

/-- `PieceTable::PieceTable(const std::string&)`. -/
def PieceTable.ofString (initial_text : List Char) : PieceTable :=
  if initial_text = [] then
    { pieces := [], original_buffer := initial_text, add_buffer := [] }
  else
    { pieces := [⟨Source.ORIGINAL, 0, initial_text.length⟩],
      original_buffer := initial_text, add_buffer := [] }

/-- `PieceTable::get_total_length`: sum of the piece lengths. -/
def PieceTable.get_total_length (pt : PieceTable) : Nat :=
  pt.pieces.foldl (fun total p => total + p.length) 0

/-- The scanning loop of `PieceTable::insert` (piece_table.cpp:22-66):
find the piece containing `position`, split it, and splice in the new
ADD piece.  Returns `none` when the loop falls through. -/
def insertLoop (position : Nat) (textLen : Nat) (add_offset : Nat) :
    List Piece → Nat → Option (List Piece)
  | [], _ => none
  | p :: rest, current_pos =>
    let piece_end := current_pos + p.length
    if position ≥ current_pos ∧ position ≤ piece_end then
      let offset_in_piece := position - current_pos
      some ((if 0 < offset_in_piece then [⟨p.source, p.offset, offset_in_piece⟩] else []) ++
            [⟨Source.ADD, add_offset, textLen⟩] ++
            (if offset_in_piece < p.length then
               [⟨p.source, p.offset + offset_in_piece, p.length - offset_in_piece⟩] else []) ++
            rest)
    else
      (insertLoop position textLen add_offset rest piece_end).map (fun l => p :: l)

/-- `PieceTable::insert` (piece_table.cpp:15-74).  When the scan finds no
enclosing piece the text is appended only if `position` equals the total
length; otherwise the call is a silent no-op. -/
def PieceTable.insert (pt : PieceTable) (position : Nat) (text : List Char) : PieceTable :=
  if text = [] then pt
  else
    match insertLoop position text.length pt.add_buffer.length pt.pieces 0 with
    | some new_pieces =>
      { pt with pieces := new_pieces, add_buffer := pt.add_buffer ++ text }
    | none =>
      if position = pt.get_total_length then
        { pt with
          pieces := pt.pieces ++ [⟨Source.ADD, pt.add_buffer.length, text.length⟩],
          add_buffer := pt.add_buffer ++ text }
      else pt

/-- The filtering loop of `PieceTable::remove` (piece_table.cpp:85-113). -/
def removeLoop (position end_position : Nat) : List Piece → Nat → List Piece
  | [], _ => []
  | p :: rest, current_pos =>
    let piece_end := current_pos + p.length
    let kept :=
      if piece_end ≤ position then [p]
      else if current_pos ≥ end_position then [p]
      else
        (if current_pos < position then
           [⟨p.source, p.offset, position - current_pos⟩] else []) ++
        (if piece_end > end_position then
           [⟨p.source, p.offset + (end_position - current_pos), piece_end - end_position⟩]
         else [])
    kept ++ removeLoop position end_position rest piece_end

/-- `PieceTable::remove` (piece_table.cpp:76-116). -/
def PieceTable.remove (pt : PieceTable) (position length : Nat) : PieceTable :=
  if length = 0 then pt
  else { pt with pieces := removeLoop position (position + length) pt.pieces 0 }

/-- The copying loop of `PieceTable::get_text` (piece_table.cpp:125-142).
`start`/`len` are the original arguments; `remaining` counts down. -/
def getTextLoop (orig add : List Char) (start len : Nat) :
    List Piece → Nat → Nat → List Char
  | [], _, _ => []
  | p :: rest, current_pos, remaining =>
    if remaining = 0 then []
    else
      let piece_end := current_pos + p.length
      if piece_end > start ∧ current_pos < start + len then
        let offset_in_piece := if start > current_pos then start - current_pos else 0
        let copy_length := min (p.length - offset_in_piece) remaining
        ((p.buf orig add).drop (p.offset + offset_in_piece)).take copy_length ++
          getTextLoop orig add start len rest piece_end (remaining - copy_length)
      else
        getTextLoop orig add start len rest piece_end remaining

/-- `PieceTable::get_text` (piece_table.cpp:118-145). -/
def PieceTable.get_text (pt : PieceTable) (start length : Nat) : List Char :=
  getTextLoop pt.original_buffer pt.add_buffer start length pt.pieces 0 length

end EditorDemo

namespace EditorDemo

theorem piecesText_append (orig add : List Char) (l₁ l₂ : List Piece) :
    piecesText orig add (l₁ ++ l₂) = piecesText orig add l₁ ++ piecesText orig add l₂ := by
  induction l₁ with
  | nil => simp [piecesText]
  | cons p rest ih => simp [piecesText, ih]

theorem Piece.text_length {p : Piece} {orig add : List Char}
    (h : p.InBounds orig add) : (p.text orig add).length = p.length := by
  unfold Piece.InBounds at h
  simp only [Piece.text, List.length_take, List.length_drop]
  omega

/-- Sum of the piece lengths of a list. -/
def sumLen (pieces : List Piece) : Nat := (pieces.map Piece.length).sum

theorem foldl_add_length (pieces : List Piece) :
    ∀ a : Nat, pieces.foldl (fun total p => total + p.length) a = a + sumLen pieces := by
  induction pieces with
  | nil => intro a; simp [sumLen]
  | cons p rest ih => intro a; simp [sumLen, List.foldl_cons, ih, List.map_cons]; omega

theorem get_total_length_eq_sumLen (pt : PieceTable) :
    pt.get_total_length = sumLen pt.pieces := by
  simpa using foldl_add_length pt.pieces 0

theorem piecesText_length (orig add : List Char) :
    ∀ pieces : List Piece, (∀ p ∈ pieces, p.InBounds orig add) →
    (piecesText orig add pieces).length = sumLen pieces := by
  intro pieces
  induction pieces with
  | nil => intro _; simp [piecesText, sumLen]
  | cons p rest ih =>
    intro h
    have hp := h p (by simp)
    have hrest := fun q hq => h q (List.mem_cons_of_mem _ hq)
    simp [piecesText, sumLen, Piece.text_length hp, ih hrest]

/-- Length of the logical document equals `get_total_length` on well-formed tables. -/
theorem docText_length {pt : PieceTable} (h : pt.WF) :
    pt.docText.length = pt.get_total_length := by
  rw [get_total_length_eq_sumLen]
  exact piecesText_length _ _ _ h

/-- The `get_text` scanning loop extracts exactly the window
`[start - cp, start - cp + remaining)` of the concatenated piece text,
where `remaining = len - (cp - start)`. -/
theorem getTextLoop_eq (orig add : List Char) (start len : Nat) :
    ∀ (pieces : List Piece) (cp : Nat), (∀ p ∈ pieces, p.InBounds orig add) →
    getTextLoop orig add start len pieces cp (len - (cp - start)) =
      ((piecesText orig add pieces).drop (start - cp)).take (len - (cp - start)) := by
  intro pieces
  induction pieces with
  | nil => intro cp _; simp [getTextLoop, piecesText]
  | cons p rest ih =>
    intro cp hwf
    have hp : p.InBounds orig add := hwf p (by simp)
    have hrest : ∀ q ∈ rest, q.InBounds orig add :=
      fun q hq => hwf q (List.mem_cons_of_mem _ hq)
    have hPt : (p.text orig add).length = p.length := Piece.text_length hp
    by_cases h0 : len - (cp - start) = 0
    · simp [getTextLoop, h0]
    · have hlt : cp < start + len := by omega
      simp only [getTextLoop]
      rw [if_neg h0]
      by_cases hcond : cp + p.length > start ∧ cp < start + len
      · rw [if_pos hcond]
        have hoff : (if start > cp then start - cp else 0) = start - cp := by
          split <;> omega
        have hole : start - cp ≤ p.length := by omega
        simp only [hoff]
        have hrem : len - (cp - start) -
            min (p.length - (start - cp)) (len - (cp - start)) =
            len - (cp + p.length - start) := by omega
        rw [hrem, ih (cp + p.length) hrest]
        have hdropT : start - (cp + p.length) = 0 := by omega
        rw [hdropT]
        -- rewrite the copied chunk as a slice of the piece's text
        have hchunk : ∀ n : Nat, n ≤ p.length - (start - cp) →
            (((p.buf orig add).drop (p.offset + (start - cp))).take n) =
            ((p.text orig add).drop (start - cp)).take n := by
          intro n hn
          simp only [Piece.text]
          rw [List.drop_take, ← List.drop_drop, List.take_take]
          congr 1
          omega
        rw [hchunk _ (Nat.min_le_left _ _)]
        -- now both sides are slices of `p.text ++ piecesText rest`
        simp only [piecesText]
        rw [List.drop_append_eq_append_drop, hPt,
          Nat.sub_eq_zero_of_le hole, List.drop_zero,
          List.take_append_eq_append_take]
        congr 1
        · rw [List.take_eq_take]
          simp only [List.length_drop, hPt]
          omega
        · congr 1
          simp only [List.length_drop, hPt]
          omega
      · -- the piece lies entirely before the window
        rw [if_neg hcond]
        have hbefore : cp + p.length ≤ start := by omega
        have hsame : len - (cp - start) = len - (cp + p.length - start) := by omega
        rw [hsame, ih (cp + p.length) hrest]
        simp only [piecesText]
        rw [List.drop_append_eq_append_drop, hPt,
          List.drop_of_length_le
            (show (p.text orig add).length ≤ start - cp from by rw [hPt]; omega)]
        simp only [List.nil_append]
        congr 2
        omega

/-- `get_text` on a well-formed table is extraction from the logical document. -/
theorem get_text_eq {pt : PieceTable} (h : pt.WF) (start len : Nat) :
    pt.get_text start len = (pt.docText.drop start).take len := by
  have := getTextLoop_eq pt.original_buffer pt.add_buffer start len pt.pieces 0 h
  simpa [PieceTable.get_text, PieceTable.docText] using this

end EditorDemo

namespace EditorDemo

theorem Piece.buf_mk (s : Source) (o l : Nat) (orig add : List Char) :
    (Piece.mk s o l).buf orig add = (match s with
      | Source.ORIGINAL => orig
      | Source.ADD => add) := rfl

theorem Piece.InBounds_extend {p : Piece} {orig add : List Char} (t : List Char)
    (h : p.InBounds orig add) : p.InBounds orig (add ++ t) := by
  obtain ⟨s, o, l⟩ := p
  cases s <;> simp_all [Piece.InBounds, Piece.buf] <;> omega

theorem Piece.text_extend {p : Piece} {orig add : List Char} (t : List Char)
    (h : p.InBounds orig add) : p.text orig (add ++ t) = p.text orig add := by
  obtain ⟨s, o, l⟩ := p
  cases s with
  | ORIGINAL => rfl
  | ADD =>
    simp only [Piece.text, Piece.buf, Piece.InBounds] at *
    rw [List.drop_append_eq_append_drop, List.take_append_eq_append_take]
    have h1 : (List.drop o add).length = add.length - o := List.length_drop o add
    have h2 : l - (List.drop o add).length = 0 := by omega
    have h3 : o - add.length = 0 := by omega
    rw [h2, List.take_zero, List.append_nil]

theorem piecesText_extend (orig add t : List Char) :
    ∀ pieces : List Piece, (∀ p ∈ pieces, p.InBounds orig add) →
    piecesText orig (add ++ t) pieces = piecesText orig add pieces := by
  intro pieces
  induction pieces with
  | nil => intro _; rfl
  | cons p rest ih =>
    intro h
    have hp := h p (by simp)
    have hrest := fun q hq => h q (List.mem_cons_of_mem _ hq)
    simp [piecesText, Piece.text_extend t hp, ih hrest]

theorem insertLoop_none (textLen add_offset : Nat) :
    ∀ (pieces : List Piece) (cp position : Nat), cp + sumLen pieces < position →
    insertLoop position textLen add_offset pieces cp = none := by
  intro pieces
  induction pieces with
  | nil => intro cp position _; rfl
  | cons p rest ih =>
    intro cp position h
    have hs : sumLen (p :: rest) = p.length + sumLen rest := by
      simp [sumLen]
    rw [hs] at h
    simp only [insertLoop]
    rw [if_neg (by omega), ih (cp + p.length) position (by omega)]
    rfl

theorem piecesText_if (orig add : List Char) (c : Prop) [Decidable c] (x : Piece) :
    piecesText orig add (if c then [x] else []) =
      if c then x.text orig add else [] := by
  split <;> simp [piecesText]

instance (p : Piece) (orig add : List Char) : Decidable (p.InBounds orig add) := by
  unfold Piece.InBounds
  infer_instance

instance (pt : PieceTable) : Decidable pt.WF := by
  unfold PieceTable.WF
  exact List.decidableBAll _ _

theorem Piece.InBounds_mk {p : Piece} {orig add : List Char} (h : p.InBounds orig add)
    (o l : Nat) (hol : o + l ≤ p.offset + p.length) :
    (Piece.mk p.source o l).InBounds orig add := by
  unfold Piece.InBounds at *
  have hb : (Piece.mk p.source o l).buf orig add = p.buf orig add := rfl
  rw [hb]
  simp only [Piece.offset, Piece.length] at *
  omega

set_option maxHeartbeats 800000 in
theorem insertLoop_some (orig add t : List Char) :
    ∀ (pieces : List Piece) (cp position : Nat),
    (∀ p ∈ pieces, p.InBounds orig add) → cp ≤ position →
    position ≤ cp + sumLen pieces → pieces ≠ [] →
    ∃ new_pieces,
      insertLoop position t.length add.length pieces cp = some new_pieces ∧
      (∀ q ∈ new_pieces, q.InBounds orig (add ++ t)) ∧
      piecesText orig (add ++ t) new_pieces =
        (piecesText orig add pieces).take (position - cp) ++ t ++
        (piecesText orig add pieces).drop (position - cp) := by
  intro pieces
  induction pieces with
  | nil => intro cp position _ _ _ hne; exact absurd rfl hne
  | cons p rest ih =>
    intro cp position hwf hcp hle _
    have hp : p.InBounds orig add := hwf p (by simp)
    have hrest : ∀ q ∈ rest, q.InBounds orig add :=
      fun q hq => hwf q (List.mem_cons_of_mem _ hq)
    have hPt : (p.text orig add).length = p.length := Piece.text_length hp
    have hsum : sumLen (p :: rest) = p.length + sumLen rest := by simp [sumLen]
    by_cases hin : position ≤ cp + p.length
    · -- the head piece encloses the position: split it here
      have hofflt : position - cp ≤ p.length := by omega
      refine ⟨(if 0 < position - cp then [Piece.mk p.source p.offset (position - cp)] else []) ++
          [Piece.mk Source.ADD add.length t.length] ++
          (if position - cp < p.length then
            [Piece.mk p.source (p.offset + (position - cp)) (p.length - (position - cp))]
           else []) ++ rest, ?_, ?_, ?_⟩
      · simp only [insertLoop]
        rw [if_pos ⟨hcp, hin⟩]
      · intro q hq
        simp only [List.mem_append] at hq
        rcases hq with ((hq | hq) | hq) | hq
        · split at hq
          · simp only [List.mem_singleton] at hq
            subst hq
            exact Piece.InBounds_extend t (Piece.InBounds_mk hp _ _ (by omega))
          · simp at hq
        · simp only [List.mem_singleton] at hq
          subst hq
          simp [Piece.InBounds, Piece.buf]
        · split at hq
          · simp only [List.mem_singleton] at hq
            subst hq
            exact Piece.InBounds_extend t (Piece.InBounds_mk hp _ _ (by omega))
          · simp at hq
        · exact Piece.InBounds_extend t (hrest q hq)
      · -- the spliced text is a take/insert/drop decomposition
        have htext1 : (Piece.mk p.source p.offset (position - cp)).text orig (add ++ t) =
            (p.text orig add).take (position - cp) := by
          have hb : (Piece.mk p.source p.offset (position - cp)).InBounds orig add :=
            Piece.InBounds_mk hp _ _ (by omega)
          rw [Piece.text_extend t hb]
          have hlhs : (Piece.mk p.source p.offset (position - cp)).text orig add =
              ((p.buf orig add).drop p.offset).take (position - cp) := rfl
          rw [hlhs]
          unfold Piece.text
          rw [List.take_take, Nat.min_eq_left hofflt]
        have htext2 :
            (Piece.mk p.source (p.offset + (position - cp)) (p.length - (position - cp))).text
              orig (add ++ t) = (p.text orig add).drop (position - cp) := by
          have hb : (Piece.mk p.source (p.offset + (position - cp))
              (p.length - (position - cp))).InBounds orig add :=
            Piece.InBounds_mk hp _ _ (by omega)
          rw [Piece.text_extend t hb]
          have hlhs : (Piece.mk p.source (p.offset + (position - cp))
                (p.length - (position - cp))).text orig add =
              ((p.buf orig add).drop (p.offset + (position - cp))).take
                (p.length - (position - cp)) := rfl
          rw [hlhs]
          unfold Piece.text
          rw [List.drop_take, List.drop_drop]
        have htextAdd :
            (Piece.mk Source.ADD add.length t.length).text orig (add ++ t) = t := by
          simp only [Piece.text, Piece.buf]
          rw [List.drop_left, List.take_length]
        have hrestExt : piecesText orig (add ++ t) rest = piecesText orig add rest :=
          piecesText_extend orig add t rest hrest
        simp only [piecesText_append, piecesText_if, piecesText, List.append_nil,
          htext1, htext2, htextAdd, hrestExt]
        rw [List.take_append_eq_append_take, List.drop_append_eq_append_drop, hPt]
        have hz : position - cp - p.length = 0 := by omega
        rw [hz, List.take_zero, List.append_nil, List.drop_zero]
        by_cases h1 : 0 < position - cp
        · rw [if_pos h1]
          by_cases h2 : position - cp < p.length
          · rw [if_pos h2]
            simp [List.append_assoc]
          · rw [if_neg h2]
            have hdropnil : (p.text orig add).drop (position - cp) = [] :=
              List.drop_of_length_le (by omega)
            rw [hdropnil]
            simp [List.append_assoc]
        · rw [if_neg h1]
          have h0 : position - cp = 0 := by omega
          by_cases h2 : position - cp < p.length
          · rw [if_pos h2]
            rw [h0, List.take_zero, List.drop_zero]
            simp
          · rw [if_neg h2]
            have hPt0 : p.text orig add = [] :=
              List.eq_nil_of_length_eq_zero (by omega)
            simp [hPt0]
    · -- the head piece lies before the position: keep it and recurse
      have hne : rest ≠ [] := by
        intro hr
        subst hr
        simp [sumLen] at hle
        omega
      obtain ⟨np, hnp, hb, htext⟩ :=
        ih (cp + p.length) position hrest (by omega) (by omega) hne
      refine ⟨p :: np, ?_, ?_, ?_⟩
      · simp only [insertLoop]
        rw [if_neg (by omega), hnp]
        rfl
      · intro q hq
        rcases List.mem_cons.mp hq with rfl | hq
        · exact Piece.InBounds_extend t hp
        · exact hb q hq
      · simp only [piecesText]
        rw [htext, Piece.text_extend t hp]
        rw [List.take_append_eq_append_take, List.drop_append_eq_append_drop, hPt]
        rw [List.take_of_length_le
            (show (p.text orig add).length ≤ position - cp from by rw [hPt]; omega),
          List.drop_of_length_le
            (show (p.text orig add).length ≤ position - cp from by rw [hPt]; omega)]
        have heq : position - cp - p.length = position - (cp + p.length) := by omega
        rw [heq]
        simp [List.append_assoc]

end EditorDemo

namespace EditorDemo

theorem Piece.text_take {p : Piece} {orig add : List Char} (n : Nat) (hn : n ≤ p.length) :
    (Piece.mk p.source p.offset n).text orig add = (p.text orig add).take n := by
  have hlhs : (Piece.mk p.source p.offset n).text orig add =
      ((p.buf orig add).drop p.offset).take n := rfl
  rw [hlhs]
  unfold Piece.text
  rw [List.take_take, Nat.min_eq_left hn]

theorem Piece.text_drop {p : Piece} {orig add : List Char} (n : Nat) :
    (Piece.mk p.source (p.offset + n) (p.length - n)).text orig add =
      (p.text orig add).drop n := by
  have hlhs : (Piece.mk p.source (p.offset + n) (p.length - n)).text orig add =
      ((p.buf orig add).drop (p.offset + n)).take (p.length - n) := rfl
  rw [hlhs]
  unfold Piece.text
  rw [List.drop_take, List.drop_drop]

theorem text_add_piece (orig add t : List Char) :
    (Piece.mk Source.ADD add.length t.length).text orig (add ++ t) = t := by
  simp only [Piece.text, Piece.buf]
  rw [List.drop_left, List.take_length]

set_option maxHeartbeats 800000 in
theorem removeLoop_eq (orig add : List Char) (position end_position : Nat)
    (hpe : position ≤ end_position) :
    ∀ (pieces : List Piece) (cp : Nat), (∀ p ∈ pieces, p.InBounds orig add) →
    piecesText orig add (removeLoop position end_position pieces cp) =
      (piecesText orig add pieces).take (position - cp) ++
      (piecesText orig add pieces).drop (end_position - cp) := by
  intro pieces
  induction pieces with
  | nil => intro cp _; simp [removeLoop, piecesText]
  | cons p rest ih =>
    intro cp hwf
    have hp : p.InBounds orig add := hwf p (by simp)
    have hrest : ∀ q ∈ rest, q.InBounds orig add :=
      fun q hq => hwf q (List.mem_cons_of_mem _ hq)
    have hPt : (p.text orig add).length = p.length := Piece.text_length hp
    simp only [removeLoop]
    by_cases hc1 : cp + p.length ≤ position
    · rw [if_pos hc1]
      rw [List.singleton_append]
      simp only [piecesText]
      rw [ih (cp + p.length) hrest]
      rw [List.take_append_eq_append_take, List.drop_append_eq_append_drop, hPt]
      rw [List.take_of_length_le
          (show (p.text orig add).length ≤ position - cp from by rw [hPt]; omega),
        List.drop_of_length_le
          (show (p.text orig add).length ≤ end_position - cp from by rw [hPt]; omega)]
      have h1 : position - cp - p.length = position - (cp + p.length) := by omega
      have h2 : end_position - cp - p.length = end_position - (cp + p.length) := by omega
      rw [h1, h2]
      simp [List.append_assoc]
    · rw [if_neg hc1]
      by_cases hc2 : cp ≥ end_position
      · rw [if_pos hc2]
        rw [List.singleton_append]
        simp only [piecesText]
        rw [ih (cp + p.length) hrest]
        have h1 : position - (cp + p.length) = 0 := by omega
        have h2 : end_position - (cp + p.length) = 0 := by omega
        have h3 : position - cp = 0 := by omega
        have h4 : end_position - cp = 0 := by omega
        rw [h1, h2, h3, h4]
        simp [piecesText]
      · rw [if_neg hc2]
        have hposlt : position < cp + p.length := by omega
        have hcpe : cp < end_position := by omega
        rw [piecesText_append, piecesText_append, piecesText_if, piecesText_if]
        rw [ih (cp + p.length) hrest]
        have hpre : (if cp < position then
            (Piece.mk p.source p.offset (position - cp)).text orig add else []) =
            (p.text orig add).take (position - cp) := by
          split
          · exact Piece.text_take _ (by omega)
          · have h0 : position - cp = 0 := by omega
            rw [h0, List.take_zero]
        have hsuf : (if cp + p.length > end_position then
            (Piece.mk p.source (p.offset + (end_position - cp))
              (cp + p.length - end_position)).text orig add else []) =
            (p.text orig add).drop (end_position - cp) := by
          split
          · have hlen : cp + p.length - end_position = p.length - (end_position - cp) := by
              omega
            rw [hlen]
            exact Piece.text_drop _
          · rw [List.drop_of_length_le (by rw [hPt]; omega)]
        rw [hpre, hsuf]
        simp only [piecesText]
        rw [List.take_append_eq_append_take, List.drop_append_eq_append_drop, hPt]
        have h1 : position - cp - p.length = 0 := by omega
        have h2 : end_position - cp - p.length = end_position - (cp + p.length) := by omega
        have h3 : position - (cp + p.length) = 0 := by omega
        rw [h1, h2, h3]
        simp [List.append_assoc]

theorem removeLoop_WF (orig add : List Char) (position end_position : Nat) :
    ∀ (pieces : List Piece) (cp : Nat), (∀ p ∈ pieces, p.InBounds orig add) →
    ∀ q ∈ removeLoop position end_position pieces cp, q.InBounds orig add := by
  intro pieces
  induction pieces with
  | nil => intro cp _ q hq; simp [removeLoop] at hq
  | cons p rest ih =>
    intro cp hwf q hq
    have hp : p.InBounds orig add := hwf p (by simp)
    have hrest : ∀ r ∈ rest, r.InBounds orig add :=
      fun r hr => hwf r (List.mem_cons_of_mem _ hr)
    simp only [removeLoop, List.mem_append] at hq
    rcases hq with hq | hq
    · split at hq
      · simp only [List.mem_singleton] at hq
        subst hq
        exact hp
      · split at hq
        · simp only [List.mem_singleton] at hq
          subst hq
          exact hp
        · simp only [List.mem_append] at hq
          rcases hq with hq | hq
          · split at hq
            · simp only [List.mem_singleton] at hq
              subst hq
              exact Piece.InBounds_mk hp _ _ (by omega)
            · simp at hq
          · split at hq
            · simp only [List.mem_singleton] at hq
              subst hq
              exact Piece.InBounds_mk hp _ _ (by omega)
            · simp at hq
    · exact ih (cp + p.length) hrest q hq

/-- `remove` realises clamped deletion on the logical document:
the bytes in `[position, position + length)` that exist are deleted,
bytes beyond the end are ignored, and no error is reported. -/
theorem remove_docText {pt : PieceTable} (hwf : pt.WF) (position length : Nat) :
    (pt.remove position length).docText =
      pt.docText.take position ++ pt.docText.drop (position + length) := by
  unfold PieceTable.remove
  by_cases h0 : length = 0
  · rw [if_pos h0]
    subst h0
    rw [Nat.add_zero, List.take_append_drop]
  · rw [if_neg h0]
    have := removeLoop_eq pt.original_buffer pt.add_buffer position (position + length)
      (by omega) pt.pieces 0 hwf
    simpa [PieceTable.docText] using this

theorem remove_WF {pt : PieceTable} (hwf : pt.WF) (position length : Nat) :
    (pt.remove position length).WF := by
  unfold PieceTable.remove
  split
  · exact hwf
  · intro q hq
    exact removeLoop_WF pt.original_buffer pt.add_buffer position (position + length)
      pt.pieces 0 hwf q hq

theorem insert_eq_of_some {pt : PieceTable} {position : Nat} {text : List Char}
    {np : List Piece} (ht : text ≠ [])
    (h : insertLoop position text.length pt.add_buffer.length pt.pieces 0 = some np) :
    pt.insert position text =
      { pt with pieces := np, add_buffer := pt.add_buffer ++ text } := by
  unfold PieceTable.insert
  rw [if_neg ht, h]

theorem insert_eq_of_none {pt : PieceTable} {position : Nat} {text : List Char}
    (ht : text ≠ [])
    (h : insertLoop position text.length pt.add_buffer.length pt.pieces 0 = none) :
    pt.insert position text =
      (if position = pt.get_total_length then
        { pt with
          pieces := pt.pieces ++ [⟨Source.ADD, pt.add_buffer.length, text.length⟩],
          add_buffer := pt.add_buffer ++ text }
       else pt) := by
  unfold PieceTable.insert
  rw [if_neg ht, h]

/-- `insert` at a position within the document splices the text in. -/
theorem insert_docText {pt : PieceTable} (hwf : pt.WF) {position : Nat} (t : List Char)
    (hpos : position ≤ pt.get_total_length) :
    (pt.insert position t).docText =
      pt.docText.take position ++ t ++ pt.docText.drop position := by
  by_cases ht : t = []
  · subst ht
    unfold PieceTable.insert
    rw [if_pos rfl, List.append_nil, List.take_append_drop]
  · rw [get_total_length_eq_sumLen] at hpos
    by_cases hnil : pt.pieces = []
    · have hpos0 : position = 0 := by
        rw [hnil] at hpos
        simpa [sumLen] using hpos
      have hloop : insertLoop position t.length pt.add_buffer.length pt.pieces 0 = none := by
        rw [hnil]; rfl
      rw [insert_eq_of_none ht hloop,
        if_pos (by rw [get_total_length_eq_sumLen, hnil, hpos0]; rfl)]
      simp only [PieceTable.docText, hnil, hpos0, piecesText_append, piecesText,
        List.append_nil, List.nil_append, List.take_nil, List.drop_nil]
      rw [text_add_piece]
    · obtain ⟨np, hnp, _, htext⟩ := insertLoop_some pt.original_buffer pt.add_buffer t
        pt.pieces 0 position hwf (Nat.zero_le _) (by omega) hnil
      rw [insert_eq_of_some ht hnp]
      simp only [PieceTable.docText]
      rw [htext]
      simp

theorem insert_WF {pt : PieceTable} (hwf : pt.WF) (position : Nat) (t : List Char) :
    (pt.insert position t).WF := by
  by_cases ht : t = []
  · subst ht
    unfold PieceTable.insert
    rw [if_pos rfl]
    exact hwf
  · have happend :
        (∀ q ∈ pt.pieces ++ [Piece.mk Source.ADD pt.add_buffer.length t.length],
          q.InBounds pt.original_buffer (pt.add_buffer ++ t)) := by
      intro q hq
      rcases List.mem_append.mp hq with hq | hq
      · exact Piece.InBounds_extend t (hwf q hq)
      · simp only [List.mem_singleton] at hq
        subst hq
        simp [Piece.InBounds, Piece.buf]
    by_cases hpos : position ≤ sumLen pt.pieces
    · by_cases hnil : pt.pieces = []
      · have hloop : insertLoop position t.length pt.add_buffer.length pt.pieces 0 = none := by
          rw [hnil]; rfl
        rw [insert_eq_of_none ht hloop]
        split
        · exact happend
        · exact hwf
      · obtain ⟨np, hnp, hb, _⟩ := insertLoop_some pt.original_buffer pt.add_buffer t
          pt.pieces 0 position hwf (Nat.zero_le _) (by omega) hnil
        rw [insert_eq_of_some ht hnp]
        exact hb
    · have hloop : insertLoop position t.length pt.add_buffer.length pt.pieces 0 = none :=
        insertLoop_none _ _ pt.pieces 0 position (by omega)
      rw [insert_eq_of_none ht hloop]
      split
      · exact happend
      · exact hwf

/-- `insert` strictly beyond the end is a silent no-op (piece_table.cpp falls
through its scan and the final `position == current_pos` test fails). -/
theorem insert_beyond_noop {pt : PieceTable} {position : Nat}
    (hpos : pt.get_total_length < position) (t : List Char) :
    pt.insert position t = pt := by
  by_cases ht : t = []
  · subst ht
    unfold PieceTable.insert
    rw [if_pos rfl]
  · have hpos' := hpos
    rw [get_total_length_eq_sumLen] at hpos'
    rw [insert_eq_of_none ht (insertLoop_none _ _ pt.pieces 0 position (by omega))]
    rw [if_neg (by omega)]

end EditorDemo

namespace EditorDemo

/-- The reversible commands of undo_manager.h: `InsertCommand` and
`DeleteCommand`.  `deleteCmd` carries the `deleted_text_` member that is
captured at execute time. -/
inductive Cmd where
  | insertCmd (position : Nat) (text : List Char) : Cmd
  | deleteCmd (position : Nat) (length : Nat) (deleted_text : List Char) : Cmd
deriving DecidableEq, Repr

/-- `Command::execute` (undo_manager.cpp:5-7 and 14-18): returns the updated
document together with the command (whose captured state may have changed). -/
def Cmd.exec : Cmd → PieceTable → PieceTable × Cmd
  | Cmd.insertCmd pos text, doc => (doc.insert pos text, Cmd.insertCmd pos text)
  | Cmd.deleteCmd pos len _, doc =>
    (doc.remove pos len, Cmd.deleteCmd pos len (doc.get_text pos len))

/-- `Command::undo` (undo_manager.cpp:9-11 and 20-23). -/
def Cmd.undoOn : Cmd → PieceTable → PieceTable
  | Cmd.insertCmd pos text, doc => doc.remove pos text.length
  | Cmd.deleteCmd pos _ deleted, doc => doc.insert pos deleted

/-- `Command::redo` defaults to `execute()` (undo_manager.h:16); neither
subclass overrides it. -/
def Cmd.redoOn (c : Cmd) (doc : PieceTable) : PieceTable × Cmd := c.exec doc

/-- The `position_` member of either command. -/
def Cmd.position : Cmd → Nat
  | Cmd.insertCmd pos _ => pos
  | Cmd.deleteCmd pos _ _ => pos

/-- The state of `class UndoManager` (undo_manager.h:57-87). -/
structure UndoManager where
  commands : List Cmd
  current_index : Nat
  max_depth : Nat
deriving DecidableEq, Repr

/-- `UndoManager::UndoManager(max_depth)`. -/
def UndoManager.init (max_depth : Nat) : UndoManager :=
  { commands := [], current_index := 0, max_depth := max_depth }

/-- `UndoManager::can_undo`. -/
def UndoManager.can_undo (m : UndoManager) : Bool := 0 < m.current_index

/-- `UndoManager::can_redo`. -/
def UndoManager.can_redo (m : UndoManager) : Bool := m.current_index < m.commands.length

/-- `UndoManager::trim_to_depth` (undo_manager.cpp:67-73), returning the new
command list and the adjusted `current_index_`. -/
def trim_to_depth (commands : List Cmd) (current_index max_depth : Nat) :
    List Cmd × Nat :=
  if commands.length > max_depth then
    (commands.drop (commands.length - max_depth),
     current_index - (commands.length - max_depth))
  else (commands, current_index)

/-- An `UndoManager` together with the `PieceTable` its commands operate on
(the `document_` pointer shared by the commands). -/
structure EditorState where
  doc : PieceTable
  mgr : UndoManager
deriving DecidableEq, Repr

/-- `UndoManager::execute` (undo_manager.cpp:26-41): truncate the redo tail,
run the command, append it, advance, and trim to `max_depth_`. -/
def EditorState.execute (st : EditorState) (cmd : Cmd) : EditorState :=
  let cmds :=
    if st.mgr.current_index < st.mgr.commands.length then
      st.mgr.commands.take st.mgr.current_index
    else st.mgr.commands
  let cmds2 := cmds ++ [(cmd.exec st.doc).2]
  let trimmed := trim_to_depth cmds2 cmds2.length st.mgr.max_depth
  { doc := (cmd.exec st.doc).1,
    mgr := { commands := trimmed.1, current_index := trimmed.2,
             max_depth := st.mgr.max_depth } }

/-- `UndoManager::undo` (undo_manager.cpp:43-53).  `commands_[i]` is within
bounds whenever `current_index ≤ commands.length` (the documented invariant);
an out-of-bounds access is undefined behaviour in the source and is modelled
here as leaving the document unchanged. -/
def EditorState.undo (st : EditorState) : EditorState :=
  if 0 < st.mgr.current_index then
    match st.mgr.commands[st.mgr.current_index - 1]? with
    | some c =>
      { doc := c.undoOn st.doc,
        mgr := { st.mgr with current_index := st.mgr.current_index - 1 } }
    | none =>
      { st with mgr := { st.mgr with current_index := st.mgr.current_index - 1 } }
  else st

/-- `UndoManager::redo` (undo_manager.cpp:55-65).  `redo()` calls the
command's `execute()`, which may update the stored command in place. -/
def EditorState.redo (st : EditorState) : EditorState :=
  match st.mgr.commands[st.mgr.current_index]? with
  | some c =>
    { doc := (c.redoOn st.doc).1,
      mgr := { st.mgr with
        commands := st.mgr.commands.set st.mgr.current_index (c.redoOn st.doc).2,
        current_index := st.mgr.current_index + 1 } }
  | none => st

/-- `UndoManager::clear` (undo_manager.h:73-76). -/
def EditorState.clear (st : EditorState) : EditorState :=
  { st with mgr := { st.mgr with commands := [], current_index := 0 } }

end EditorDemo

namespace EditorDemo

theorem splice_take (T t : List Char) (pos : Nat) (hp : pos ≤ T.length) :
    (T.take pos ++ t ++ T.drop pos).take pos = T.take pos := by
  rw [List.append_assoc, List.take_append_eq_append_take]
  rw [List.take_of_length_le (by simp), List.length_take]
  have h0 : pos - min pos T.length = 0 := by omega
  rw [h0, List.take_zero, List.append_nil]

theorem splice_drop (T t : List Char) (pos : Nat) (hp : pos ≤ T.length) :
    (T.take pos ++ t ++ T.drop pos).drop (pos + t.length) = T.drop pos := by
  rw [List.append_assoc, List.drop_append_eq_append_drop]
  rw [List.drop_of_length_le (by rw [List.length_take]; omega), List.length_take]
  have h0 : pos + t.length - min pos T.length = t.length := by omega
  rw [h0, List.nil_append, List.drop_append_eq_append_drop]
  rw [List.drop_length, Nat.sub_self, List.drop_zero, List.nil_append]

/-- Executing a command and undoing it through the command objects restores
the document text (`position_` within bounds). -/
theorem exec_undo_text {doc : PieceTable} (hwf : doc.WF) (c : Cmd)
    (hpos : c.position ≤ doc.get_total_length) :
    ((c.exec doc).2.undoOn (c.exec doc).1).docText = doc.docText := by
  have hlen : doc.docText.length = doc.get_total_length := docText_length hwf
  cases c with
  | insertCmd pos t =>
    simp only [Cmd.exec, Cmd.undoOn, Cmd.position] at *
    rw [remove_docText (insert_WF hwf pos t) pos t.length,
      insert_docText hwf t hpos]
    rw [splice_take _ _ _ (by omega), splice_drop _ _ _ (by omega),
      List.take_append_drop]
  | deleteCmd pos len x =>
    simp only [Cmd.exec, Cmd.undoOn, Cmd.position] at *
    have hrwf : (doc.remove pos len).WF := remove_WF hwf pos len
    have hrtext : (doc.remove pos len).docText =
        doc.docText.take pos ++ doc.docText.drop (pos + len) :=
      remove_docText hwf pos len
    have hple : pos ≤ (doc.remove pos len).get_total_length := by
      rw [← docText_length hrwf, hrtext]
      simp only [List.length_append, List.length_take]
      omega
    rw [insert_docText hrwf _ hple, hrtext]
    rw [get_text_eq hwf]
    have h1 : (doc.docText.take pos ++ doc.docText.drop (pos + len)).take pos =
        doc.docText.take pos := by
      rw [List.take_append_eq_append_take, List.take_take,
        Nat.min_self, List.length_take]
      have h0 : pos - min pos doc.docText.length = 0 := by omega
      rw [h0, List.take_zero, List.append_nil]
    have h2 : (doc.docText.take pos ++ doc.docText.drop (pos + len)).drop pos =
        doc.docText.drop (pos + len) := by
      rw [List.drop_append_eq_append_drop,
        List.drop_of_length_le (by simp), List.length_take]
      have h0 : pos - min pos doc.docText.length = 0 := by omega
      rw [h0, List.drop_zero, List.nil_append]
    rw [h1, h2]
    have h3 : doc.docText.drop (pos + len) = (doc.docText.drop pos).drop len := by
      rw [List.drop_drop]
    rw [h3, List.append_assoc, List.take_append_drop, List.take_append_drop]

/-- The undone document is again well-formed. -/
theorem exec_undo_WF {doc : PieceTable} (hwf : doc.WF) (c : Cmd) :
    ((c.exec doc).2.undoOn (c.exec doc).1).WF := by
  cases c with
  | insertCmd pos t =>
    exact remove_WF (insert_WF hwf pos t) pos t.length
  | deleteCmd pos len x =>
    exact insert_WF (remove_WF hwf pos len) pos _

/-- Re-executing the (state-carrying) command on any well-formed document
with the same text produces the same text as the original execution. -/
theorem exec_snd_exec_text {doc : PieceTable} (hwf : doc.WF) (c : Cmd)
    (hpos : c.position ≤ doc.get_total_length)
    {d : PieceTable} (hd : d.WF) (ht : d.docText = doc.docText) :
    ((c.exec doc).2.exec d).1.docText = (c.exec doc).1.docText := by
  have hlen : d.get_total_length = doc.get_total_length := by
    rw [← docText_length hd, ← docText_length hwf, ht]
  cases c with
  | insertCmd pos t =>
    simp only [Cmd.exec, Cmd.position] at *
    rw [insert_docText hd t (by omega), insert_docText hwf t hpos, ht]
  | deleteCmd pos len x =>
    simp only [Cmd.exec] at *
    rw [remove_docText hd pos len, remove_docText hwf pos len, ht]

theorem trim_to_depth_spec (cmds : List Cmd) (d : Nat) (hd : 1 ≤ d) (hne : cmds ≠ []) :
    (trim_to_depth cmds cmds.length d).2 = (trim_to_depth cmds cmds.length d).1.length ∧
    0 < (trim_to_depth cmds cmds.length d).1.length ∧
    (trim_to_depth cmds cmds.length d).1[(trim_to_depth cmds cmds.length d).1.length - 1]? =
      cmds[cmds.length - 1]? := by
  have hlen : 0 < cmds.length := List.length_pos.mpr hne
  unfold trim_to_depth
  by_cases h : cmds.length > d
  · simp only [if_pos h, List.length_drop]
    refine ⟨trivial, by omega, ?_⟩
    rw [List.getElem?_drop]
    congr 1
    omega
  · simp only [if_neg h]
    exact ⟨trivial, hlen, trivial⟩

theorem execute_state (st : EditorState) (c : Cmd) (hd : 1 ≤ st.mgr.max_depth) :
    (st.execute c).doc = (c.exec st.doc).1 ∧
    (st.execute c).mgr.max_depth = st.mgr.max_depth ∧
    (st.execute c).mgr.current_index = (st.execute c).mgr.commands.length ∧
    0 < (st.execute c).mgr.commands.length ∧
    (st.execute c).mgr.commands[(st.execute c).mgr.commands.length - 1]? =
      some (c.exec st.doc).2 := by
  have hA : ((if st.mgr.current_index < st.mgr.commands.length then
      st.mgr.commands.take st.mgr.current_index else st.mgr.commands) ++
      [(c.exec st.doc).2]) ≠ [] := by simp
  obtain ⟨h1, h2, h3⟩ := trim_to_depth_spec _ st.mgr.max_depth hd hA
  unfold EditorState.execute
  dsimp only
  refine ⟨rfl, rfl, h1, h2, ?_⟩
  rw [h3]
  rw [show ((if st.mgr.current_index < st.mgr.commands.length then
      st.mgr.commands.take st.mgr.current_index else st.mgr.commands) ++
      [(c.exec st.doc).2]).length - 1 =
      (if st.mgr.current_index < st.mgr.commands.length then
      st.mgr.commands.take st.mgr.current_index else st.mgr.commands).length from by
    simp]
  exact List.getElem?_concat_length _ _

end EditorDemo

namespace EditorDemo

/-- After `execute c; undo()` the document text is restored, and a further
`redo()` restores the post-execute text. -/
theorem execute_undo_redo_docText (st : EditorState) (hwf : st.doc.WF) (c : Cmd)
    (hpos : c.position ≤ st.doc.get_total_length) (hd : 1 ≤ st.mgr.max_depth) :
    ((st.execute c).undo).doc.docText = st.doc.docText ∧
    (((st.execute c).undo).redo).doc.docText = (st.execute c).doc.docText := by
  obtain ⟨hdoc, _, hcur, hposlen, hlast⟩ := execute_state st c hd
  have hcanundo : 0 < (st.execute c).mgr.current_index := by
    rw [hcur]; exact hposlen
  have hidx : (st.execute c).mgr.current_index - 1 =
      (st.execute c).mgr.commands.length - 1 := by rw [hcur]
  have hundoDoc : ((st.execute c).undo).doc = (c.exec st.doc).2.undoOn (st.execute c).doc := by
    unfold EditorState.undo
    rw [if_pos hcanundo, hidx, hlast]
  have hundoCmds : ((st.execute c).undo).mgr.commands = (st.execute c).mgr.commands := by
    unfold EditorState.undo
    rw [if_pos hcanundo]
    cases hx : (st.execute c).mgr.commands[(st.execute c).mgr.current_index - 1]? <;> rfl
  have hundoIdx : ((st.execute c).undo).mgr.current_index =
      (st.execute c).mgr.current_index - 1 := by
    unfold EditorState.undo
    rw [if_pos hcanundo]
    cases hx : (st.execute c).mgr.commands[(st.execute c).mgr.current_index - 1]? <;> rfl
  have htext1 : ((st.execute c).undo).doc.docText = st.doc.docText := by
    rw [hundoDoc, hdoc]
    exact exec_undo_text hwf c hpos
  refine ⟨htext1, ?_⟩
  have hwf2 : ((st.execute c).undo).doc.WF := by
    rw [hundoDoc, hdoc]
    exact exec_undo_WF hwf c
  have hscrut : ((st.execute c).undo).mgr.commands[((st.execute c).undo).mgr.current_index]? =
      some (c.exec st.doc).2 := by
    rw [hundoCmds, hundoIdx, hidx, hlast]
  unfold EditorState.redo
  rw [hscrut]
  have := exec_snd_exec_text hwf c hpos hwf2 htext1
  simpa [Cmd.redoOn, hdoc] using this

end EditorDemo

namespace EditorDemo

/-- **C1**: for every well-formed piece-table buffer, position `p ≤ length()`
and non-empty `t`, `insert(p, t); get_text(p, |t|)` returns exactly `t`, the
bytes before `p` are unchanged, and the bytes that previously followed `p`
are shifted right by `|t|`. -/
theorem insert_get_text_spec (pt : PieceTable) (hwf : pt.WF) (p : Nat) (t : List Char)
    (hp : p ≤ pt.get_total_length) (ht : t ≠ []) :
    (pt.insert p t).get_text p t.length = t ∧
    (pt.insert p t).get_text 0 p = pt.get_text 0 p ∧
    ∀ l : Nat, (pt.insert p t).get_text (p + t.length) l = pt.get_text p l := by
  have hwf2 : (pt.insert p t).WF := insert_WF hwf p t
  have hT : pt.docText.length = pt.get_total_length := docText_length hwf
  have hsplice : (pt.insert p t).docText =
      pt.docText.take p ++ t ++ pt.docText.drop p := insert_docText hwf t hp
  have hlenA : (pt.docText.take p).length = p := by
    rw [List.length_take]; omega
  have hdropp : (pt.insert p t).docText.drop p = t ++ pt.docText.drop p := by
    rw [hsplice, List.append_assoc, List.drop_append_eq_append_drop]
    rw [List.drop_of_length_le (by omega), hlenA, Nat.sub_self, List.drop_zero,
      List.nil_append]
  refine ⟨?_, ?_, ?_⟩
  · rw [get_text_eq hwf2, hdropp, List.take_append_eq_append_take,
      List.take_length, Nat.sub_self, List.take_zero, List.append_nil]
  · rw [get_text_eq hwf2, get_text_eq hwf, List.drop_zero, List.drop_zero, hsplice,
      List.append_assoc, List.take_append_eq_append_take,
      List.take_of_length_le (by omega), hlenA, Nat.sub_self, List.take_zero,
      List.append_nil]
  · intro l
    rw [get_text_eq hwf2, get_text_eq hwf, hsplice, splice_drop _ _ _ (by omega)]

end EditorDemo

namespace EditorDemo

/-- Witness for C1 at a concrete buffer: `"ab"`, `insert(1, "XY")`. -/
theorem insert_get_text_spec_witness :
    ((PieceTable.ofString "ab".toList).insert 1 "XY".toList).get_text 1 2 = "XY".toList ∧
    ((PieceTable.ofString "ab".toList).insert 1 "XY".toList).get_text 0 1 =
      (PieceTable.ofString "ab".toList).get_text 0 1 ∧
    ((PieceTable.ofString "ab".toList).insert 1 "XY".toList).get_text 3 1 =
      (PieceTable.ofString "ab".toList).get_text 1 1 := by
  obtain ⟨h1, h2, h3⟩ := insert_get_text_spec (PieceTable.ofString "ab".toList)
    (by decide) 1 "XY".toList (by decide) (by decide)
  exact ⟨h1, h2, h3 1⟩

/-- **C2**: executing an `Insert` or `Delete` command whose position lies
within the buffer and undoing leaves the full text byte-identical to the
pre-execute text; `can_undo()` holds after the execute, and `undo(); redo()`
restores the pre-undo (= post-execute) text.  One slot of history is needed,
i.e. `max_depth ≥ 1` (the source default is 1000). -/
theorem undo_manager_roundtrip (st : EditorState) (hwf : st.doc.WF) (c : Cmd)
    (hpos : c.position ≤ st.doc.get_total_length) (hdepth : 1 ≤ st.mgr.max_depth) :
    ((st.execute c).undo).doc.docText = st.doc.docText ∧
    (st.execute c).mgr.can_undo = true ∧
    (((st.execute c).undo).redo).doc.docText = (st.execute c).doc.docText := by
  obtain ⟨h1, h2⟩ := execute_undo_redo_docText st hwf c hpos hdepth
  obtain ⟨_, _, hcur, hposlen, _⟩ := execute_state st c hdepth
  refine ⟨h1, ?_, h2⟩
  simp only [UndoManager.can_undo, hcur]
  simpa using hposlen

/-- Witness for C2: deleting two bytes from `"abc"` and undoing/redoing. -/
theorem undo_manager_roundtrip_witness :
    ((((⟨PieceTable.ofString "abc".toList, UndoManager.init 1000⟩ : EditorState).execute
        (Cmd.deleteCmd 1 2 [])).undo).doc.docText =
      (PieceTable.ofString "abc".toList).docText) ∧
    ((⟨PieceTable.ofString "abc".toList, UndoManager.init 1000⟩ : EditorState).execute
        (Cmd.deleteCmd 1 2 [])).mgr.can_undo = true ∧
    (((((⟨PieceTable.ofString "abc".toList, UndoManager.init 1000⟩ : EditorState).execute
        (Cmd.deleteCmd 1 2 [])).undo).redo).doc.docText =
      (((⟨PieceTable.ofString "abc".toList, UndoManager.init 1000⟩ : EditorState).execute
        (Cmd.deleteCmd 1 2 [])).doc.docText)) :=
  undo_manager_roundtrip ⟨PieceTable.ofString "abc".toList, UndoManager.init 1000⟩
    (by decide) (Cmd.deleteCmd 1 2 []) (by decide) (by decide)

/-- Counterexample to C3 as stated: on the buffer `"abc"`, `remove(1, 5)`
reaches beyond the end yet is not rejected — the buffer changes (to `"a"`),
so the range is silently clamped rather than failing. -/
theorem remove_beyond_counterexample :
    1 + 5 > (PieceTable.ofString "abc".toList).get_total_length ∧
    ((PieceTable.ofString "abc".toList).remove 1 5).docText ≠
      (PieceTable.ofString "abc".toList).docText := by
  decide

/-- **C3** (amended): a `remove(position, length)` reaching beyond the end of
the document is not rejected; it silently clamps, deleting exactly the bytes
of `[position, length())` and reporting no error (the member returns `void`),
and it leaves the buffer unchanged only when `position ≥ length()`. -/
theorem remove_clamped_spec (pt : PieceTable) (hwf : pt.WF) (position length : Nat)
    (h : pt.get_total_length < position + length) :
    (pt.remove position length).docText =
      pt.docText.take position ++ pt.docText.drop (position + length) ∧
    (pt.get_total_length ≤ position → (pt.remove position length).docText = pt.docText) := by
  have hT : pt.docText.length = pt.get_total_length := docText_length hwf
  refine ⟨remove_docText hwf position length, fun hge => ?_⟩
  rw [remove_docText hwf position length,
    List.take_of_length_le (by omega), List.drop_of_length_le (by omega),
    List.append_nil]

/-- Witness for C3 (amended): `"abc".remove(1, 5)` keeps byte 0 only. -/
theorem remove_clamped_spec_witness :
    ((PieceTable.ofString "abc".toList).remove 1 5).docText =
      (PieceTable.ofString "abc".toList).docText.take 1 ++
      (PieceTable.ofString "abc".toList).docText.drop 6 :=
  (remove_clamped_spec (PieceTable.ofString "abc".toList) (by decide) 1 5 (by decide)).1

/-- **C10**: `insert(p, t)` with `p` strictly greater than `length()` and
non-empty `t` is a silent no-op: the piece list, the original buffer, the add
buffer (hence the document text) are unchanged and no error is reported —
the function simply returns. -/
theorem insert_beyond_silent (pt : PieceTable) (position : Nat) (t : List Char)
    (hp : pt.get_total_length < position) (ht : t ≠ []) :
    pt.insert position t = pt ∧ (pt.insert position t).docText = pt.docText := by
  have h := insert_beyond_noop hp t
  exact ⟨h, by rw [h]⟩

/-- Witness for C10: inserting at position 5 of `"abc"`. -/
theorem insert_beyond_silent_witness :
    (PieceTable.ofString "abc".toList).insert 5 "X".toList =
      PieceTable.ofString "abc".toList :=
  (insert_beyond_silent (PieceTable.ofString "abc".toList) 5 "X".toList
    (by decide) (by decide)).1

end EditorDemo

namespace EditorDemo

/-- **C8**: with the invariant `current_index ≤ commands.length` in force
(`0 ≤ current_index` holds trivially over `Nat`), every operation preserves
it; `execute` truncates the tail beyond `current_index`, appends the new
command, and drops the excess from the front, decreasing `current_index` by
the number dropped, so that at most `max_depth` commands are retained. -/
theorem undo_manager_invariants (st : EditorState) (c : Cmd)
    (h : st.mgr.current_index ≤ st.mgr.commands.length) :
    ((st.execute c).mgr.current_index ≤ (st.execute c).mgr.commands.length ∧
     (st.undo).mgr.current_index ≤ (st.undo).mgr.commands.length ∧
     (st.redo).mgr.current_index ≤ (st.redo).mgr.commands.length ∧
     (st.clear).mgr.current_index ≤ (st.clear).mgr.commands.length) ∧
    (st.execute c).mgr.commands.length ≤ st.mgr.max_depth ∧
    (st.execute c).mgr.commands =
      (st.mgr.commands.take st.mgr.current_index ++ [(c.exec st.doc).2]).drop
        (st.mgr.current_index + 1 - st.mgr.max_depth) ∧
    (st.execute c).mgr.current_index =
      st.mgr.current_index + 1 - (st.mgr.current_index + 1 - st.mgr.max_depth) := by
  have htake : (if st.mgr.current_index < st.mgr.commands.length then
      st.mgr.commands.take st.mgr.current_index else st.mgr.commands) =
      st.mgr.commands.take st.mgr.current_index := by
    split
    · rfl
    · rw [List.take_of_length_le (by omega)]
  have hlen2 : (st.mgr.commands.take st.mgr.current_index ++ [(c.exec st.doc).2]).length =
      st.mgr.current_index + 1 := by
    simp only [List.length_append, List.length_take, List.length_cons, List.length_nil]
    omega
  have hexecCmds : (st.execute c).mgr.commands =
      (st.mgr.commands.take st.mgr.current_index ++ [(c.exec st.doc).2]).drop
        (st.mgr.current_index + 1 - st.mgr.max_depth) ∧
      (st.execute c).mgr.current_index =
      st.mgr.current_index + 1 - (st.mgr.current_index + 1 - st.mgr.max_depth) := by
    unfold EditorState.execute trim_to_depth
    rw [htake]
    by_cases hgt : (st.mgr.commands.take st.mgr.current_index ++
        [(c.exec st.doc).2]).length > st.mgr.max_depth
    · simp only [if_pos hgt]
      rw [hlen2]
      exact ⟨rfl, rfl⟩
    · simp only [if_neg hgt]
      rw [hlen2] at hgt
      have h0 : st.mgr.current_index + 1 - st.mgr.max_depth = 0 := by omega
      rw [h0, List.drop_zero]
      exact ⟨rfl, by rw [hlen2]; omega⟩
  refine ⟨⟨?_, ?_, ?_, ?_⟩, ?_, hexecCmds.1, hexecCmds.2⟩
  · rw [hexecCmds.1, hexecCmds.2, List.length_drop, hlen2]
  · unfold EditorState.undo
    split
    · cases hx : st.mgr.commands[st.mgr.current_index - 1]? <;> simp <;> omega
    · exact h
  · unfold EditorState.redo
    cases hx : st.mgr.commands[st.mgr.current_index]? with
    | some cmd =>
      have hlt : st.mgr.current_index < st.mgr.commands.length := by
        by_contra hge
        rw [List.getElem?_eq_none (by omega)] at hx
        exact Option.noConfusion hx
      simp only [List.length_set]
      omega
    | none => exact h
  · exact Nat.zero_le _
  · rw [hexecCmds.1, List.length_drop, hlen2]
    omega

end EditorDemo

namespace EditorDemo

/-- Witness for C8 on a concrete state with `max_depth = 2`. -/
theorem undo_manager_invariants_witness :
    (((⟨PieceTable.ofString "a".toList, UndoManager.init 2⟩ : EditorState).execute
        (Cmd.insertCmd 0 "x".toList)).mgr.current_index ≤
      ((⟨PieceTable.ofString "a".toList, UndoManager.init 2⟩ : EditorState).execute
        (Cmd.insertCmd 0 "x".toList)).mgr.commands.length ∧
     ((⟨PieceTable.ofString "a".toList, UndoManager.init 2⟩ : EditorState).undo).mgr.current_index ≤
      ((⟨PieceTable.ofString "a".toList, UndoManager.init 2⟩ : EditorState).undo).mgr.commands.length ∧
     ((⟨PieceTable.ofString "a".toList, UndoManager.init 2⟩ : EditorState).redo).mgr.current_index ≤
      ((⟨PieceTable.ofString "a".toList, UndoManager.init 2⟩ : EditorState).redo).mgr.commands.length ∧
     ((⟨PieceTable.ofString "a".toList, UndoManager.init 2⟩ : EditorState).clear).mgr.current_index ≤
      ((⟨PieceTable.ofString "a".toList, UndoManager.init 2⟩ : EditorState).clear).mgr.commands.length) ∧
    ((⟨PieceTable.ofString "a".toList, UndoManager.init 2⟩ : EditorState).execute
        (Cmd.insertCmd 0 "x".toList)).mgr.commands.length ≤ 2 ∧
    ((⟨PieceTable.ofString "a".toList, UndoManager.init 2⟩ : EditorState).execute
        (Cmd.insertCmd 0 "x".toList)).mgr.commands =
      (((⟨PieceTable.ofString "a".toList, UndoManager.init 2⟩ : EditorState).mgr.commands.take 0 ++
        [((Cmd.insertCmd 0 "x".toList).exec (PieceTable.ofString "a".toList)).2]).drop (0 + 1 - 2)) ∧
    ((⟨PieceTable.ofString "a".toList, UndoManager.init 2⟩ : EditorState).execute
        (Cmd.insertCmd 0 "x".toList)).mgr.current_index = 0 + 1 - (0 + 1 - 2) :=
  undo_manager_invariants ⟨PieceTable.ofString "a".toList, UndoManager.init 2⟩
    (Cmd.insertCmd 0 "x".toList) (by decide)

end EditorDemo

namespace EditorDemo

/-- `FindDialog::to_lower` (find_dialog.cpp:5-10): byte-wise `std::tolower`;
`Char.toLower` lowers exactly the ASCII range `A`-`Z`, matching `tolower`
in the C locale on the ASCII bytes these strings hold. -/
def to_lower (str : List Char) : List Char := str.map Char.toLower

/-- `FindDialog::matches_at_position` (find_dialog.cpp:12-24).
`case_sensitive` is the dialog's `case_sensitive_` member. -/
def matches_at_position (case_sensitive : Bool) (text : List Char) (pos : Nat)
    (search_text : List Char) : Bool :=
  if pos + search_text.length > text.length then false
  else if case_sensitive then
    decide ((text.drop pos).take search_text.length = search_text)
  else
    decide (to_lower ((text.drop pos).take search_text.length) = to_lower search_text)

/-- `struct SearchMatch` (find_dialog.h). -/
structure SearchMatch where
  position : Nat
  line : Nat
  column : Nat
  length : Nat
deriving DecidableEq, Repr

/-- The line/column loop shared by `find_all`/`find_next`/`find_previous`
(find_dialog.cpp:43-52): walk the bytes before `pos`, counting newlines and
remembering the index after the last one. -/
def lineColGo : List Char → Nat → Nat → Nat → Nat × Nat
  | [], _, line, line_start => (line, line_start)
  | ch :: rest, i, line, line_start =>
    if ch = '\n' then lineColGo rest (i + 1) (line + 1) (i + 1)
    else lineColGo rest (i + 1) line line_start

/-- Line and column of a byte position, as computed by the source. -/
def computeLineCol (document_text : List Char) (pos : Nat) : Nat × Nat :=
  ((lineColGo (document_text.take pos) 0 0 0).1,
   pos - (lineColGo (document_text.take pos) 0 0 0).2)

/-- The scanning loop of `FindDialog::find_all` (find_dialog.cpp:35-59):
advance by the needle length on a match, by one byte otherwise. -/
def findAllLoop (case_sensitive : Bool) (document_text search_text : List Char)
    (hn : search_text ≠ []) (pos : Nat) : List SearchMatch :=
  if h : pos < document_text.length then
    if matches_at_position case_sensitive document_text pos search_text then
      { position := pos,
        line := (computeLineCol document_text pos).1,
        column := (computeLineCol document_text pos).2,
        length := search_text.length } ::
        findAllLoop case_sensitive document_text search_text hn (pos + search_text.length)
    else
      findAllLoop case_sensitive document_text search_text hn (pos + 1)
  else []
termination_by document_text.length - pos
decreasing_by
  · have : 0 < search_text.length := List.length_pos.mpr hn
    omega
  · omega

/-- `FindDialog::find_all` (find_dialog.cpp:26-62). -/
def find_all (case_sensitive : Bool) (document_text search_text : List Char) :
    List SearchMatch :=
  if h : search_text = [] then []
  else findAllLoop case_sensitive document_text search_text h 0

/-- The rewriting loop of `FindDialog::replace_all` (find_dialog.cpp:153-161):
on a match, splice in the replacement and jump the cursor past it. -/
def replaceAllLoop (case_sensitive : Bool) (search_text replace_text : List Char)
    (hn : search_text ≠ []) (document_text : List Char) (pos replace_count : Nat) :
    List Char × Nat :=
  if h : pos < document_text.length then
    if matches_at_position case_sensitive document_text pos search_text then
      replaceAllLoop case_sensitive search_text replace_text hn
        (document_text.take pos ++ replace_text ++
          document_text.drop (pos + search_text.length))
        (pos + replace_text.length) (replace_count + 1)
    else
      replaceAllLoop case_sensitive search_text replace_text hn document_text
        (pos + 1) replace_count
  else (document_text, replace_count)
termination_by document_text.length - pos
decreasing_by
  · have hs : 0 < search_text.length := List.length_pos.mpr hn
    simp only [List.length_append, List.length_take, List.length_drop]
    omega
  · omega

/-- `FindDialog::replace_all` (find_dialog.cpp:143-164), returning the new
text and the replacement count. -/
def replace_all (case_sensitive : Bool)
    (document_text search_text replace_text : List Char) : List Char × Nat :=
  if h : search_text = [] then (document_text, 0)
  else replaceAllLoop case_sensitive search_text replace_text h document_text 0 0

end EditorDemo

namespace EditorDemo

/-- The claim's "compared under ASCII lower-casing when case-insensitive". -/
def caseAdjEq (case_sensitive : Bool) (s t : List Char) : Prop :=
  if case_sensitive then s = t else to_lower s = to_lower t

theorem matches_at_position_true {cs : Bool} {text : List Char} {pos : Nat}
    {search : List Char} (h : matches_at_position cs text pos search = true) :
    pos + search.length ≤ text.length ∧
    caseAdjEq cs ((text.drop pos).take search.length) search := by
  unfold matches_at_position at h
  by_cases hb : pos + search.length > text.length
  · rw [if_pos hb] at h
    exact absurd h (by simp)
  · rw [if_neg hb] at h
    refine ⟨by omega, ?_⟩
    unfold caseAdjEq
    cases cs with
    | false => simpa using h
    | true => simpa using h

theorem findAllLoop_mem (cs : Bool) (text search : List Char) (hn : search ≠ []) :
    ∀ (k pos : Nat), text.length - pos ≤ k →
    ∀ m ∈ findAllLoop cs text search hn pos,
      pos ≤ m.position ∧ m.length = search.length ∧
      matches_at_position cs text m.position search = true := by
  intro k
  induction k with
  | zero =>
    intro pos hk m hm
    rw [findAllLoop] at hm
    rw [dif_neg (by omega)] at hm
    simp at hm
  | succ k ih =>
    intro pos hk m hm
    by_cases hlt : pos < text.length
    · rw [findAllLoop, dif_pos hlt] at hm
      by_cases hmatch : matches_at_position cs text pos search = true
      · rw [if_pos hmatch] at hm
        rcases List.mem_cons.mp hm with rfl | hm
        · exact ⟨Nat.le_refl _, rfl, hmatch⟩
        · have hlen : 0 < search.length := List.length_pos.mpr hn
          obtain ⟨h1, h2, h3⟩ := ih (pos + search.length) (by omega) m hm
          exact ⟨by omega, h2, h3⟩
      · rw [if_neg hmatch] at hm
        obtain ⟨h1, h2, h3⟩ := ih (pos + 1) (by omega) m hm
        exact ⟨by omega, h2, h3⟩
    · rw [findAllLoop, dif_neg hlt] at hm
      simp at hm

theorem findAllLoop_pairwise (cs : Bool) (text search : List Char) (hn : search ≠ []) :
    ∀ (k pos : Nat), text.length - pos ≤ k →
    List.Pairwise (fun a b : SearchMatch => a.position + a.length ≤ b.position)
      (findAllLoop cs text search hn pos) := by
  intro k
  induction k with
  | zero =>
    intro pos hk
    rw [findAllLoop, dif_neg (by omega)]
    exact List.Pairwise.nil
  | succ k ih =>
    intro pos hk
    by_cases hlt : pos < text.length
    · rw [findAllLoop, dif_pos hlt]
      by_cases hmatch : matches_at_position cs text pos search = true
      · rw [if_pos hmatch]
        have hlen : 0 < search.length := List.length_pos.mpr hn
        refine List.Pairwise.cons ?_ (ih (pos + search.length) (by omega))
        intro b hb
        obtain ⟨h1, _, _⟩ := findAllLoop_mem cs text search hn
          (text.length - (pos + search.length)) (pos + search.length) (Nat.le_refl _) b hb
        simpa using h1
      · rw [if_neg hmatch]
        exact ih (pos + 1) (by omega)
    · rw [findAllLoop, dif_neg hlt]
      exact List.Pairwise.nil

end EditorDemo

namespace EditorDemo

/-- **C5**: every match of `find_all(h, n)` satisfies
`h.substr(m.position, m.length) == n` under the configured case folding and
lies within `h`; matches are pairwise non-overlapping and strictly
increasing by position; an empty needle yields no matches. -/
theorem find_all_spec (cs : Bool) (h n : List Char) :
    (∀ m ∈ find_all cs h n,
      caseAdjEq cs ((h.drop m.position).take m.length) n ∧
      m.length = n.length ∧ m.position + m.length ≤ h.length) ∧
    List.Pairwise (fun a b : SearchMatch => a.position + a.length ≤ b.position)
      (find_all cs h n) ∧
    List.Pairwise (fun a b : SearchMatch => a.position < b.position) (find_all cs h n) ∧
    (n = [] → find_all cs h n = []) := by
  by_cases hn : n = []
  · unfold find_all
    rw [dif_pos hn]
    exact ⟨by simp, List.Pairwise.nil, List.Pairwise.nil, fun _ => rfl⟩
  · have hmem : ∀ m ∈ find_all cs h n,
        caseAdjEq cs ((h.drop m.position).take m.length) n ∧
        m.length = n.length ∧ m.position + m.length ≤ h.length := by
      intro m hm
      unfold find_all at hm
      rw [dif_neg hn] at hm
      obtain ⟨_, hlen, hmatch⟩ :=
        findAllLoop_mem cs h n hn h.length 0 (Nat.le_refl _) m hm
      obtain ⟨hbound, hsub⟩ := matches_at_position_true hmatch
      rw [← hlen] at hbound hsub
      exact ⟨hsub, hlen, hbound⟩
    have hpw : List.Pairwise (fun a b : SearchMatch => a.position + a.length ≤ b.position)
        (find_all cs h n) := by
      unfold find_all
      rw [dif_neg hn]
      exact findAllLoop_pairwise cs h n hn h.length 0 (Nat.le_refl _)
    refine ⟨hmem, hpw, ?_, fun hc => absurd hc hn⟩
    refine hpw.imp_of_mem ?_
    intro a b ha _ hab
    have hlen : a.length = n.length := (hmem a ha).2.1
    have : 0 < n.length := List.length_pos.mpr hn
    omega

/-- Witness for C5 on the document `"oxo"` with needle `"o"`. -/
theorem find_all_spec_witness :
    caseAdjEq false ((('o' :: 'x' :: 'o' :: []).drop 0).take 1) ('o' :: []) ∧
    List.Pairwise (fun a b : SearchMatch => a.position < b.position)
      (find_all false ('o' :: 'x' :: 'o' :: []) ('o' :: [])) ∧
    find_all false ('o' :: 'x' :: 'o' :: []) [] = [] :=
  ⟨((find_all_spec false ('o' :: 'x' :: 'o' :: []) ('o' :: [])).1
      ⟨0, 0, 0, 1⟩ (by
        simp [find_all, findAllLoop, matches_at_position, to_lower,
          computeLineCol, lineColGo])).1,
   (find_all_spec false ('o' :: 'x' :: 'o' :: []) ('o' :: [])).2.2.1,
   (find_all_spec false ('o' :: 'x' :: 'o' :: []) []).2.2.2 rfl⟩

end EditorDemo

namespace EditorDemo

theorem replaceAllLoop_count_le (cs : Bool) (s r : List Char) (hn : s ≠ []) :
    ∀ (k : Nat) (text : List Char) (pos cnt : Nat), text.length - pos ≤ k →
    cnt ≤ (replaceAllLoop cs s r hn text pos cnt).2 := by
  intro k
  induction k with
  | zero =>
    intro text pos cnt hk
    rw [replaceAllLoop, dif_neg (by omega)]
  | succ k ih =>
    intro text pos cnt hk
    by_cases hlt : pos < text.length
    · rw [replaceAllLoop, dif_pos hlt]
      by_cases hm : matches_at_position cs text pos s = true
      · rw [if_pos hm]
        have hs : 0 < s.length := List.length_pos.mpr hn
        have := ih (text.take pos ++ r ++ text.drop (pos + s.length))
          (pos + r.length) (cnt + 1)
          (by simp only [List.length_append, List.length_take, List.length_drop]; omega)
        omega
      · rw [if_neg hm]
        exact ih text (pos + 1) cnt (by omega)
    · rw [replaceAllLoop, dif_neg hlt]

theorem replaceAllLoop_count_zero (cs : Bool) (s r : List Char) (hn : s ≠ []) :
    ∀ (k : Nat) (text : List Char) (pos cnt : Nat), text.length - pos ≤ k →
    (replaceAllLoop cs s r hn text pos cnt).2 = cnt →
    (replaceAllLoop cs s r hn text pos cnt).1 = text := by
  intro k
  induction k with
  | zero =>
    intro text pos cnt hk _
    rw [replaceAllLoop, dif_neg (by omega)]
  | succ k ih =>
    intro text pos cnt hk hcnt
    by_cases hlt : pos < text.length
    · by_cases hm : matches_at_position cs text pos s = true
      · exfalso
        rw [replaceAllLoop, dif_pos hlt, if_pos hm] at hcnt
        have hs : 0 < s.length := List.length_pos.mpr hn
        have := replaceAllLoop_count_le cs s r hn
          ((text.take pos ++ r ++ text.drop (pos + s.length)).length - (pos + r.length))
          (text.take pos ++ r ++ text.drop (pos + s.length))
          (pos + r.length) (cnt + 1) (Nat.le_refl _)
        omega
      · rw [replaceAllLoop, dif_pos hlt, if_neg hm] at hcnt ⊢
        exact ih text (pos + 1) cnt (by omega) hcnt
    · rw [replaceAllLoop, dif_neg hlt]

/-- Byte equality under the dialog's case folding. -/
def charMatch (cs : Bool) (a b : Char) : Bool :=
  if cs then decide (a = b) else decide (a.toLower = b.toLower)

theorem matches_at_single {cs : Bool} {text : List Char} {pos : Nat} {c : Char}
    (hlt : pos < text.length) :
    matches_at_position cs text pos [c] = charMatch cs text[pos] c := by
  have hdt : (text.drop pos).take 1 = [text[pos]] := by
    rw [List.drop_eq_getElem_cons hlt]
    rfl
  unfold matches_at_position charMatch
  rw [if_neg (by simp only [List.length_singleton]; omega)]
  simp only [List.length_singleton, hdt, to_lower, List.map_cons, List.map_nil]
  cases cs <;> simp

theorem replaceAllLoop_clean (cs : Bool) (c : Char) (r : List Char)
    (hn : ([c] : List Char) ≠ []) (hr : ∀ x ∈ r, charMatch cs x c = false) :
    ∀ (k : Nat) (text : List Char) (pos cnt : Nat), text.length - pos ≤ k →
    (∀ x ∈ text.take pos, charMatch cs x c = false) →
    ∀ x ∈ (replaceAllLoop cs [c] r hn text pos cnt).1, charMatch cs x c = false := by
  intro k
  induction k with
  | zero =>
    intro text pos cnt hk hpre x hx
    rw [replaceAllLoop, dif_neg (by omega)] at hx
    exact hpre x (by rw [List.take_of_length_le (by omega)]; exact hx)
  | succ k ih =>
    intro text pos cnt hk hpre x hx
    by_cases hlt : pos < text.length
    · rw [replaceAllLoop, dif_pos hlt] at hx
      by_cases hm : matches_at_position cs text pos [c] = true
      · rw [if_pos hm] at hx
        refine ih (text.take pos ++ r ++ text.drop (pos + 1))
          (pos + r.length) (cnt + 1) ?_ ?_ x hx
        · simp only [List.length_append, List.length_take, List.length_drop,
            List.length_singleton]
          rw [Nat.min_eq_left (Nat.le_of_lt hlt)]
          omega
        · intro y hy
          have hsplit : (text.take pos ++ r ++ text.drop (pos + 1)).take (pos + r.length) =
              text.take pos ++ r := by
            rw [List.append_assoc, List.take_append_eq_append_take,
              List.take_of_length_le (by rw [List.length_take]; omega),
              List.length_take, Nat.min_eq_left (Nat.le_of_lt hlt),
              Nat.add_sub_cancel_left, List.take_append_eq_append_take,
              List.take_length, Nat.sub_self, List.take_zero, List.append_nil]
          rw [hsplit] at hy
          rcases List.mem_append.mp hy with hy | hy
          · exact hpre y hy
          · exact hr y hy
      · rw [if_neg hm] at hx
        refine ih text (pos + 1) cnt (by omega) ?_ x hx
        intro y hy
        rw [List.take_succ] at hy
        rcases List.mem_append.mp hy with hy | hy
        · exact hpre y hy
        · have hg : text[pos]? = some text[pos] := List.getElem?_eq_getElem hlt
          rw [hg] at hy
          simp only [Option.toList_some, List.mem_singleton] at hy
          subst hy
          rw [matches_at_single hlt] at hm
          simpa using hm
    · rw [replaceAllLoop, dif_neg hlt] at hx
      exact hpre x (by rw [List.take_of_length_le (by omega)]; exact hx)

theorem findAllLoop_clean (cs : Bool) (c : Char) (hn : ([c] : List Char) ≠ [])
    (text : List Char) (hclean : ∀ x ∈ text, charMatch cs x c = false) :
    ∀ (k pos : Nat), text.length - pos ≤ k →
    findAllLoop cs text [c] hn pos = [] := by
  intro k
  induction k with
  | zero =>
    intro pos hk
    rw [findAllLoop, dif_neg (by omega)]
  | succ k ih =>
    intro pos hk
    by_cases hlt : pos < text.length
    · rw [findAllLoop, dif_pos hlt]
      have hm : matches_at_position cs text pos [c] = false := by
        rw [matches_at_single hlt]
        exact hclean text[pos] (List.getElem_mem hlt)
      rw [if_neg (by rw [hm]; simp)]
      exact ih (pos + 1) (by omega)
    · rw [findAllLoop, dif_neg hlt]

end EditorDemo

namespace EditorDemo

/-- Counterexample to C4 as stated: with haystack `"aab"`, needle `"ab"` and
replacement `"b"` (so `n ≠ r` and `n` is not a substring of `r`),
`replace_all` performs one replacement and yields `"ab"`, in which
`find_all` still finds a match — the byte before the replaced occurrence and
the replacement together form a fresh occurrence. -/
theorem replace_all_counterexample :
    ('a' :: 'b' :: []) ≠ ('b' :: []) ∧
    ¬ List.IsInfix ('a' :: 'b' :: []) ('b' :: []) ∧
    (replace_all false ('a' :: 'a' :: 'b' :: []) ('a' :: 'b' :: []) ('b' :: [])).2 ≠ 0 ∧
    find_all false
      (replace_all false ('a' :: 'a' :: 'b' :: []) ('a' :: 'b' :: []) ('b' :: [])).1
      ('a' :: 'b' :: []) ≠ [] := by
  have hrep : replace_all false ('a' :: 'a' :: 'b' :: []) ('a' :: 'b' :: []) ('b' :: []) =
      ('a' :: 'b' :: [], 1) := by
    simp [replace_all, replaceAllLoop, matches_at_position, to_lower]
  refine ⟨by decide, by decide, ?_, ?_⟩
  · rw [hrep]
    decide
  · rw [hrep]
    simp [find_all, findAllLoop, matches_at_position, to_lower, computeLineCol, lineColGo]

/-- **C4** (amended): `replace_all(h, n, r)` returns `h' = h` whenever the
count is zero; and when the needle is a single byte that does not occur in
`r` under the configured case folding (which entails `n ≠ r` and `n ⊄ r`),
`find_all(h', n)` returns no matches.  For longer needles the left-to-right
scan can juxtapose kept bytes with the replacement into fresh occurrences,
so zero residual matches is not guaranteed by `n ≠ r` and `n ⊄ r` alone. -/
theorem replace_all_spec (cs : Bool) (h n r : List Char) :
    ((replace_all cs h n r).2 = 0 → (replace_all cs h n r).1 = h) ∧
    (∀ c : Char, n = [c] → (∀ x ∈ r, charMatch cs x c = false) →
      find_all cs (replace_all cs h n r).1 n = []) := by
  constructor
  · intro h0
    unfold replace_all at h0 ⊢
    by_cases hn : n = []
    · rw [dif_pos hn]
    · rw [dif_neg hn] at h0 ⊢
      exact replaceAllLoop_count_zero cs n r hn h.length h 0 0 (Nat.le_refl _) h0
  · intro c hc hr
    subst hc
    unfold replace_all find_all
    rw [dif_neg (by simp), dif_neg (by simp)]
    have hclean : ∀ x ∈ (replaceAllLoop cs [c] r (by simp) h 0 0).1,
        charMatch cs x c = false :=
      replaceAllLoop_clean cs c r (by simp) hr h.length h 0 0 (Nat.le_refl _) (by simp)
    exact findAllLoop_clean cs c (by simp) _ hclean
      (replaceAllLoop cs [c] r (by simp) h 0 0).1.length 0 (Nat.le_refl _)

/-- Witness for C4 (amended): a zero-count call leaves `"xyz"` unchanged,
and replacing the single byte `a` by `o` in `"banana"` leaves no match. -/
theorem replace_all_spec_witness :
    (replace_all false ('x' :: 'y' :: 'z' :: []) ('a' :: 'b' :: []) ('q' :: [])).1 =
      ('x' :: 'y' :: 'z' :: []) ∧
    find_all false
      (replace_all false ('b' :: 'a' :: 'n' :: []) ('a' :: []) ('o' :: [])).1
      ('a' :: []) = [] := by
  refine ⟨(replace_all_spec false ('x' :: 'y' :: 'z' :: []) ('a' :: 'b' :: [])
      ('q' :: [])).1 ?_,
    (replace_all_spec false ('b' :: 'a' :: 'n' :: []) ('a' :: []) ('o' :: [])).2
      'a' rfl (by decide)⟩
  simp [replace_all, replaceAllLoop, matches_at_position, to_lower]

end EditorDemo

namespace EditorDemo

/-- Index of the character after the last `/` or `\` (cf.
`find_last_of("/\\")` in tab_manager.h). -/
def lastSlashIdx : List Char → Option Nat
  | [] => none
  | ch :: rest =>
    match lastSlashIdx rest with
    | some i => some (i + 1)
    | none => if ch = '/' ∨ ch = '\\' then some 0 else none

/-- `EditorTab::extract_filename` (tab_manager.h:27-34). -/
def extract_filename (path : List Char) : List Char :=
  match lastSlashIdx path with
  | some i => path.drop (i + 1)
  | none => path

/-- `struct EditorTab` (tab_manager.h:12-25). -/
structure EditorTab where
  document : PieceTable
  file_path : List Char
  display_name : List Char
  is_modified : Bool
  cursor_pos : Nat
deriving DecidableEq, Repr

/-- The `EditorTab` constructor. -/
def mkEditorTab (doc : PieceTable) (path : List Char) : EditorTab :=
  { document := doc,
    file_path := path,
    display_name := if path = [] then "Untitled".toList else extract_filename path,
    is_modified := false,
    cursor_pos := 0 }

/-- The state of `class TabManager` (tab_manager.h:40-157). -/
structure TabManager where
  tabs : List EditorTab
  active_tab_index : Nat
deriving DecidableEq, Repr

/-- `TabManager::new_tab` (tab_manager.h:48-53). -/
def TabManager.new_tab (tm : TabManager) (content path : List Char) : TabManager × Nat :=
  ({ tabs := tm.tabs ++ [mkEditorTab (PieceTable.ofString content) path],
     active_tab_index := (tm.tabs ++ [mkEditorTab (PieceTable.ofString content) path]).length - 1 },
   (tm.tabs ++ [mkEditorTab (PieceTable.ofString content) path]).length - 1)

/-- `TabManager::TabManager()` (tab_manager.h:42-45): starts with one empty tab. -/
def TabManager.init : TabManager :=
  (({ tabs := [], active_tab_index := 0 } : TabManager).new_tab [] []).1

/-- `TabManager::close_tab` (tab_manager.h:55-73). -/
def TabManager.close_tab (tm : TabManager) (index : Nat) : TabManager × Bool :=
  if tm.tabs.length ≤ 1 then (tm, false)
  else if index ≥ tm.tabs.length then (tm, false)
  else
    ({ tabs := tm.tabs.eraseIdx index,
       active_tab_index :=
         if tm.active_tab_index ≥ (tm.tabs.eraseIdx index).length then
           (tm.tabs.eraseIdx index).length - 1
         else tm.active_tab_index },
     true)

/-- `TabManager::close_active_tab` (tab_manager.h:75-77). -/
def TabManager.close_active_tab (tm : TabManager) : TabManager :=
  (tm.close_tab tm.active_tab_index).1

/-- `TabManager::next_tab` (tab_manager.h:80-83). -/
def TabManager.next_tab (tm : TabManager) : TabManager :=
  if tm.tabs.length = 0 then tm
  else { tm with active_tab_index := (tm.active_tab_index + 1) % tm.tabs.length }

/-- `TabManager::previous_tab` (tab_manager.h:85-92). -/
def TabManager.previous_tab (tm : TabManager) : TabManager :=
  if tm.tabs.length = 0 then tm
  else if tm.active_tab_index = 0 then
    { tm with active_tab_index := tm.tabs.length - 1 }
  else { tm with active_tab_index := tm.active_tab_index - 1 }

/-- `TabManager::set_active_tab` (tab_manager.h:94-98). -/
def TabManager.set_active_tab (tm : TabManager) (index : Nat) : TabManager :=
  if index < tm.tabs.length then { tm with active_tab_index := index } else tm

/-- **C9**: the constructor creates one tab; `new_tab`, `close_tab`,
`close_active_tab`, `next_tab`, `previous_tab` and `set_active_tab` all
preserve a tab count of at least one; `close_tab(i)` returns `false` and
leaves the manager unchanged when only one tab exists or `i` is out of
range; after every successful close the active index denotes a valid tab. -/
theorem tab_manager_spec (tm : TabManager) (i : Nat) (content path : List Char) :
    TabManager.init.tabs.length = 1 ∧
    (1 ≤ tm.tabs.length →
      1 ≤ (tm.new_tab content path).1.tabs.length ∧
      1 ≤ (tm.close_tab i).1.tabs.length ∧
      1 ≤ tm.close_active_tab.tabs.length ∧
      1 ≤ tm.next_tab.tabs.length ∧
      1 ≤ tm.previous_tab.tabs.length ∧
      1 ≤ (tm.set_active_tab i).tabs.length) ∧
    (tm.tabs.length = 1 → tm.close_tab i = (tm, false)) ∧
    (i ≥ tm.tabs.length → tm.close_tab i = (tm, false)) ∧
    ((tm.close_tab i).2 = true →
      (tm.close_tab i).1.active_tab_index < (tm.close_tab i).1.tabs.length) := by
  have hclose : ∀ (t : TabManager) (j : Nat), 1 ≤ t.tabs.length →
      1 ≤ (t.close_tab j).1.tabs.length := by
    intro t j h1
    unfold TabManager.close_tab
    by_cases ha : t.tabs.length ≤ 1
    · rw [if_pos ha]
      exact h1
    · rw [if_neg ha]
      by_cases hb : j ≥ t.tabs.length
      · rw [if_pos hb]
        exact h1
      · rw [if_neg hb]
        have hlen : (t.tabs.eraseIdx j).length = t.tabs.length - 1 :=
          List.length_eraseIdx_of_lt (by omega)
        dsimp only
        omega
  refine ⟨rfl, ?_, ?_, ?_, ?_⟩
  · intro h1
    refine ⟨by simp [TabManager.new_tab], hclose tm i h1, hclose tm _ h1, ?_, ?_, ?_⟩
    · unfold TabManager.next_tab
      split <;> simpa
    · unfold TabManager.previous_tab
      split
      · exact h1
      · split <;> simpa
    · unfold TabManager.set_active_tab
      split <;> simpa
  · intro h1
    unfold TabManager.close_tab
    rw [if_pos (by omega)]
  · intro hge
    unfold TabManager.close_tab
    by_cases ha : tm.tabs.length ≤ 1
    · rw [if_pos ha]
    · rw [if_neg ha, if_pos hge]
  · intro hs
    unfold TabManager.close_tab at hs ⊢
    by_cases ha : tm.tabs.length ≤ 1
    · rw [if_pos ha] at hs
      exact absurd hs (by simp)
    · rw [if_neg ha] at hs ⊢
      by_cases hb : i ≥ tm.tabs.length
      · rw [if_pos hb] at hs
        exact absurd hs (by simp)
      · rw [if_neg hb] at hs ⊢
        simp only
        have hlen : (tm.tabs.eraseIdx i).length = tm.tabs.length - 1 :=
          List.length_eraseIdx_of_lt (by omega)
        split
        · omega
        · omega

/-- Witness for C9 on a two-tab manager. -/
theorem tab_manager_spec_witness :
    TabManager.init.tabs.length = 1 ∧
    (TabManager.init.new_tab "x".toList "a/b".toList).1.tabs.length ≥ 1 ∧
    TabManager.init.close_tab 0 = (TabManager.init, false) := by
  obtain ⟨h1, h2, h3, _, _⟩ :=
    tab_manager_spec TabManager.init 0 "x".toList "a/b".toList
  exact ⟨h1, (h2 (by decide)).1, h3 (by decide)⟩

end EditorDemo

namespace EditorDemo

/-- The star-skipping epilogue of `wildcard_match_one`
(gui_main.cpp:968-969): `while (*pat == '*') ++pat`. -/
def skipStars (pat : List Char) (pi : Nat) : Nat :=
  if h : pat[pi]? = some '*' then skipStars pat (pi + 1) else pi
termination_by pat.length - pi
decreasing_by
  have hlt : pi < pat.length := by
    by_contra hge
    rw [List.getElem?_eq_none (by omega)] at h
    exact Option.noConfusion h
  omega

/-- The string position remembered for backtracking (`s` in the source);
`0` when no star has been seen. -/
def sVal : Option (Nat × Nat) → Nat
  | none => 0
  | some ps => ps.2

/-- The main loop of `wildcard_match_one` (gui_main.cpp:959-970), a
two-pointer `*`/`?` matcher with single backtrack state.  `pi`/`si` index
into the pattern and string; `bp = some (p, s)` models the saved pointers
`p`/`s` (position after the last `*`, and the string position to resume
from).  Reading the pattern at or past its end models the `\0` terminator:
it is neither `*` nor `?` nor equal to any string byte. -/
def wmLoop (pat str : List Char) (pi si : Nat) (bp : Option (Nat × Nat)) : Bool :=
  if hsi : si < str.length then
    if hstar : pat[pi]? = some '*' then
      wmLoop pat str (pi + 1) si (some (pi + 1, si))
    else if pat[pi]? = some '?' ∨ pat[pi]? = str[si]? then
      wmLoop pat str (pi + 1) (si + 1) bp
    else
      match bp with
      | some ps => wmLoop pat str ps.1 (ps.2 + 1) (some (ps.1, ps.2 + 1))
      | none => false
  else
    (pat[skipStars pat pi]?).isNone
termination_by (str.length - min (sVal bp) si, str.length - si, pat.length - pi)
decreasing_by
  · have hpi : pi < pat.length := by
      by_contra hge
      rw [List.getElem?_eq_none (by omega)] at hstar
      exact Option.noConfusion hstar
    simp only [sVal, Nat.min_self]
    have h1 : str.length - si ≤ str.length - min (sVal bp) si := by
      have := Nat.min_le_right (sVal bp) si
      omega
    rcases Nat.eq_or_lt_of_le h1 with heq | hlt
    · rw [heq]
      exact Prod.Lex.right _ (Prod.Lex.right _ (by omega))
    · exact Prod.Lex.left _ _ hlt
  · have h1 : str.length - min (sVal bp) (si + 1) ≤ str.length - min (sVal bp) si := by
      have : min (sVal bp) si ≤ min (sVal bp) (si + 1) :=
        min_le_min (Nat.le_refl _) (Nat.le_succ _)
      omega
    rcases Nat.eq_or_lt_of_le h1 with heq | hlt
    · rw [heq]
      exact Prod.Lex.right _ (Prod.Lex.left _ _ (by omega))
    · exact Prod.Lex.left _ _ hlt
  · rename_i ps
    apply Prod.Lex.left
    simp only [sVal, Nat.min_self]
    have h2 := Nat.min_le_left ps.2 si
    have h3 := Nat.min_le_right ps.2 si
    omega

/-- `wildcard_match_one(pat, str)` (gui_main.cpp:959-970). -/
def wildcard_match_one (pat str : List Char) : Bool :=
  wmLoop pat str 0 0 none

/-- `wildcard_match` (gui_main.cpp:972-974). -/
def wildcard_match (pattern value : List Char) : Bool :=
  wildcard_match_one pattern value

/-- The accumulation loop of `split_patterns` (gui_main.cpp:942-957); both
non-separator branches of the source append the byte to `cur`, so the
function splits on `;`/`,` and drops empty segments. -/
def splitGo : List Char → List Char → List (List Char)
  | [], cur => if cur = [] then [] else [cur]
  | ch :: rest, cur =>
    if ch = ';' ∨ ch = ',' then
      (if cur = [] then [] else [cur]) ++ splitGo rest []
    else splitGo rest (cur ++ [ch])

/-- `split_patterns` (gui_main.cpp:942-957). -/
def split_patterns (s : List Char) : List (List Char) := splitGo s []

/-- One exclude element's test (gui_main.cpp:986-992): wildcard elements are
matched against basename and full path, others as substring of the
lowercased path. -/
def excludeMatches (lower_path filename ex : List Char) : Bool :=
  let lex := to_lower ex
  if lex.contains '*' ∨ lex.contains '?' then
    wildcard_match lex filename || wildcard_match lex lower_path
  else
    decide (List.IsInfix lex lower_path)

/-- One include element's test (gui_main.cpp:995-998): always a wildcard
match against basename or full path, even for elements without `*`/`?`. -/
def includeMatches (lower_path filename inc : List Char) : Bool :=
  wildcard_match (to_lower inc) filename || wildcard_match (to_lower inc) lower_path

/-- `VelocityEditor::path_matches_includes_excludes` (gui_main.cpp:976-1001). -/
def path_matches_includes_excludes
    (project_include_patterns project_exclude_patterns path : List Char) : Bool :=
  let includes := split_patterns project_include_patterns
  let excludes := split_patterns project_exclude_patterns
  let lower_path := to_lower path
  let filename :=
    match lastSlashIdx lower_path with
    | some i => lower_path.drop (i + 1)
    | none => lower_path
  if excludes.any (excludeMatches lower_path filename) then false
  else includes.isEmpty || includes.any (includeMatches lower_path filename)

/-- `?` or equal byte. -/
def charOk (pc sc : Char) : Bool := decide (pc = '?') || decide (pc = sc)

/-- Pairwise star-free segment match. -/
def segOk : List Char → List Char → Bool
  | [], [] => true
  | pc :: ps, sc :: ss => decide (pc ≠ '*') && charOk pc sc && segOk ps ss
  | _, _ => false

/-- Modelled from the spec: the glob language of §4.6 — `*` matches zero or
more bytes, `?` exactly one, every other byte itself; used to check that the
source's two-pointer matcher realises it. -/
def globMatch : List Char → List Char → Bool
  | [], [] => true
  | '*' :: ps, [] => globMatch ps []
  | _ :: _, [] => false
  | [], _ :: _ => false
  | '*' :: ps, sc :: ss => globMatch ps (sc :: ss) || globMatch ('*' :: ps) ss
  | pc :: ps, sc :: ss => charOk pc sc && globMatch ps ss
termination_by pat str => pat.length + str.length
decreasing_by all_goals simp <;> omega

end EditorDemo

namespace EditorDemo

theorem glob_nil (ps : List Char) :
    globMatch ps [] = ps.all (fun c => decide (c = '*')) := by
  induction ps with
  | nil => rw [globMatch.eq_1]; rfl
  | cons c rest ih =>
    by_cases hc : c = '*'
    · subst hc
      rw [globMatch.eq_2, ih]
      simp
    · rw [globMatch.eq_3 c rest (fun h => hc h)]
      simp [hc]

theorem glob_star_iff (ps w : List Char) :
    globMatch ('*' :: ps) w = true ↔
      ∃ k, k ≤ w.length ∧ globMatch ps (w.drop k) = true := by
  induction w with
  | nil =>
    rw [globMatch.eq_2]
    constructor
    · intro h
      exact ⟨0, Nat.le_refl _, h⟩
    · rintro ⟨k, _, hk⟩
      simpa using hk
  | cons sc ss ih =>
    rw [globMatch.eq_5]
    constructor
    · intro h
      rcases Bool.or_eq_true_iff.mp h with h | h
      · exact ⟨0, Nat.zero_le _, h⟩
      · obtain ⟨k, hk, hg⟩ := ih.mp h
        exact ⟨k + 1, by simpa using hk, hg⟩
    · rintro ⟨k, hk, hg⟩
      cases k with
      | zero =>
        apply Bool.or_eq_true_iff.mpr
        exact Or.inl hg
      | succ k =>
        apply Bool.or_eq_true_iff.mpr
        exact Or.inr (ih.mpr ⟨k, by simpa using hk, hg⟩)

theorem glob_star_drop (ps w : List Char) (k : Nat)
    (h : globMatch ('*' :: ps) (w.drop k) = true) :
    globMatch ('*' :: ps) w = true := by
  obtain ⟨j, hj, hg⟩ := (glob_star_iff ps (w.drop k)).mp h
  rw [List.drop_drop] at hg
  have hd : w.drop (min k w.length + j) = w.drop (k + j) := by
    rcases Nat.le_total k w.length with hk | hk
    · rw [Nat.min_eq_left hk]
    · rw [Nat.min_eq_right hk,
        List.drop_of_length_le (by omega), List.drop_of_length_le (by omega)]
  rw [List.length_drop] at hj
  exact (glob_star_iff ps w).mpr ⟨min k w.length + j, by omega, hd ▸ hg⟩

theorem segOk_length {u t : List Char} (h : segOk u t = true) : u.length = t.length := by
  induction u generalizing t with
  | nil =>
    cases t with
    | nil => rfl
    | cons a b => simp [segOk] at h
  | cons pc ps ih =>
    cases t with
    | nil => simp [segOk] at h
    | cons sc ss =>
      simp only [segOk, Bool.and_eq_true] at h
      simp [ih h.2]

theorem segOk_no_star {u t : List Char} (h : segOk u t = true) :
    ∀ x ∈ u, x ≠ '*' := by
  induction u generalizing t with
  | nil => intro x hx; simp at hx
  | cons pc ps ih =>
    cases t with
    | nil => simp [segOk] at h
    | cons sc ss =>
      simp only [segOk, Bool.and_eq_true, decide_eq_true_eq] at h
      intro x hx
      rcases List.mem_cons.mp hx with rfl | hx
      · exact h.1.1
      · exact ih h.2 x hx

theorem segOk_snoc {u t : List Char} (h : segOk u t = true) {pc sc : Char}
    (hpc : pc ≠ '*') (hok : charOk pc sc = true) :
    segOk (u ++ [pc]) (t ++ [sc]) = true := by
  induction u generalizing t with
  | nil =>
    cases t with
    | nil => simp [segOk, hpc, hok]
    | cons a b => simp [segOk] at h
  | cons qc qs ih =>
    cases t with
    | nil => simp [segOk] at h
    | cons rc rs =>
      simp only [segOk, Bool.and_eq_true] at h
      simp only [List.cons_append, segOk, Bool.and_eq_true]
      exact ⟨h.1, ih h.2⟩

/-- A star-free segment at the front of a pattern must match the string
byte-for-byte. -/
theorem glob_front_seg (u : List Char) (hu : ∀ x ∈ u, x ≠ '*') :
    ∀ (v w : List Char),
    globMatch (u ++ v) w = (segOk u (w.take u.length) && globMatch v (w.drop u.length)) := by
  induction u with
  | nil =>
    intro v w
    simp [segOk]
  | cons pc ps ih =>
    intro v w
    have hpc : pc ≠ '*' := hu pc (by simp)
    have hps : ∀ x ∈ ps, x ≠ '*' := fun x hx => hu x (List.mem_cons_of_mem _ hx)
    cases w with
    | nil =>
      rw [List.cons_append, globMatch.eq_3 pc (ps ++ v) (fun h => hpc h)]
      simp [segOk]
    | cons sc ss =>
      rw [List.cons_append, globMatch.eq_6 pc (ps ++ v) sc ss (fun h => hpc h)]
      simp only [List.length_cons, List.take_succ_cons, List.drop_succ_cons, segOk]
      rw [ih hps v ss]
      cases hok : charOk pc sc <;>
        cases hs : segOk ps (ss.take ps.length) <;> simp [hpc]

end EditorDemo

namespace EditorDemo

theorem boolEqOfIff {a b : Bool} (h : a = true ↔ b = true) : a = b := by
  cases a <;> cases b <;> simp_all

/-- Absorbing an already-matched star-free segment `u` into a leading star:
the saved backtrack point can be forgotten when a new star arrives. -/
theorem glob_star_seg {u t : List Char} (hseg : segOk u t = true) (R w : List Char)
    (hw : w.take u.length = t) :
    globMatch ('*' :: (u ++ '*' :: R)) w = globMatch ('*' :: R) (w.drop u.length) := by
  have hu : ∀ x ∈ u, x ≠ '*' := segOk_no_star hseg
  apply boolEqOfIff
  constructor
  · intro h
    obtain ⟨k, hk, hg⟩ := (glob_star_iff _ _).mp h
    rw [glob_front_seg u hu ('*' :: R) (w.drop k)] at hg
    rcases Bool.and_eq_true_iff.mp hg with ⟨_, hg2⟩
    rw [List.drop_drop] at hg2
    have hcomm : w.drop (k + u.length) = (w.drop u.length).drop k := by
      rw [List.drop_drop, Nat.add_comm]
    rw [hcomm] at hg2
    exact glob_star_drop R (w.drop u.length) k hg2
  · intro h
    apply (glob_star_iff _ _).mpr
    refine ⟨0, Nat.zero_le _, ?_⟩
    rw [List.drop_zero, glob_front_seg u hu ('*' :: R) w, hw, hseg, Bool.true_and]
    exact h

/-- If the tail fails after the star-free segment, the whole star-free
front fails. -/
theorem glob_no_k0 {u : List Char} (hu : ∀ x ∈ u, x ≠ '*') (Rest w : List Char)
    (hfail : globMatch Rest (w.drop u.length) = false) :
    globMatch (u ++ Rest) w = false := by
  rw [glob_front_seg u hu Rest w, hfail, Bool.and_false]

/-- When the string is exactly the matched segment, a star-led pattern
succeeds iff the rest of the pattern is all stars. -/
theorem glob_star_exact {u t : List Char} (hseg : segOk u t = true) (R : List Char)
    {w : List Char} (hw : w = t) :
    globMatch ('*' :: (u ++ R)) w = R.all (fun c => decide (c = '*')) := by
  have hu : ∀ x ∈ u, x ≠ '*' := segOk_no_star hseg
  have hlen : u.length = w.length := by rw [hw]; exact segOk_length hseg
  apply boolEqOfIff
  constructor
  · intro h
    obtain ⟨k, hk, hg⟩ := (glob_star_iff _ _).mp h
    rw [glob_front_seg u hu R (w.drop k)] at hg
    rcases Bool.and_eq_true_iff.mp hg with ⟨hg1, hg2⟩
    have hk0 : k = 0 := by
      have h1 := segOk_length hg1
      simp only [List.length_take, List.length_drop] at h1
      omega
    subst hk0
    rw [List.drop_zero, hlen, List.drop_length, glob_nil] at hg2
    exact hg2
  · intro h
    apply (glob_star_iff _ _).mpr
    refine ⟨0, Nat.zero_le _, ?_⟩
    rw [List.drop_zero, glob_front_seg u hu R w]
    rw [show w.take u.length = t from by rw [hw, hlen, hw]; exact List.take_length t]
    rw [hseg, Bool.true_and, hlen, List.drop_length, glob_nil]
    exact h

theorem skipStars_isNone (pat : List Char) : ∀ (k pi : Nat), pat.length - pi ≤ k →
    (pat[skipStars pat pi]?).isNone = (pat.drop pi).all (fun c => decide (c = '*')) := by
  intro k
  induction k with
  | zero =>
    intro pi hk
    have hge : pat.length ≤ pi := by omega
    have hdrop : pat.drop pi = [] := List.drop_of_length_le hge
    rw [skipStars, dif_neg (by rw [List.getElem?_eq_none hge]; simp), hdrop]
    rw [List.getElem?_eq_none hge]
    rfl
  | succ k ih =>
    intro pi hk
    by_cases hstar : pat[pi]? = some '*'
    · have hpi : pi < pat.length := by
        by_contra hge
        rw [List.getElem?_eq_none (by omega)] at hstar
        exact Option.noConfusion hstar
      have hc : pat[pi] = '*' := by
        have := List.getElem?_eq_getElem hpi
        rw [this] at hstar
        exact Option.some.inj hstar
      rw [skipStars, dif_pos hstar, ih (pi + 1) (by omega)]
      rw [List.drop_eq_getElem_cons hpi, hc]
      simp
    · rw [skipStars, dif_neg hstar]
      cases hx : pat[pi]? with
      | none =>
        have hge : pat.length ≤ pi := by
          by_contra hlt
          rw [List.getElem?_eq_getElem (by omega)] at hx
          exact Option.noConfusion hx
        rw [List.drop_of_length_le hge]
        rfl
      | some c =>
        have hpi : pi < pat.length := by
          by_contra hge
          rw [List.getElem?_eq_none (by omega)] at hx
          exact Option.noConfusion hx
        have hc : pat[pi] = c := by
          have := List.getElem?_eq_getElem hpi
          rw [this] at hx
          exact Option.some.inj hx
        have hcne : ¬ c = '*' := by
          intro hc2
          rw [hc2] at hx
          exact hstar hx
        rw [List.drop_eq_getElem_cons hpi, hc]
        simp [hcne]

end EditorDemo

namespace EditorDemo

/-- What a loop state denotes: with no backtrack point, the remaining
pattern against the remaining string; with one, the pattern from the saved
star against the string from the saved position. -/
def wmTarget (pat str : List Char) (pi si : Nat) : Option (Nat × Nat) → Bool
  | none => globMatch (pat.drop pi) (str.drop si)
  | some ps => globMatch ('*' :: pat.drop ps.1) (str.drop ps.2)

/-- Loop invariant: the saved pointers trail the cursors by the same
distance and the bytes in between matched star-free. -/
def wmInv (pat str : List Char) (pi si : Nat) : Option (Nat × Nat) → Prop
  | none => True
  | some ps => ps.1 ≤ pi ∧ ps.2 ≤ si ∧ pi - ps.1 = si - ps.2 ∧
      segOk ((pat.drop ps.1).take (pi - ps.1)) ((str.drop ps.2).take (si - ps.2)) = true

set_option maxHeartbeats 1600000 in
theorem wmLoop_eq_glob (pat str : List Char) (pi si : Nat) (bp : Option (Nat × Nat)) :
    si ≤ str.length → wmInv pat str pi si bp →
    wmLoop pat str pi si bp = wmTarget pat str pi si bp := by
  induction pi, si, bp using wmLoop.induct pat str with
  | case1 pi si bp hsi hstar ih =>
    intro hle hinv
    have hpi : pi < pat.length := by
      by_contra hge
      rw [List.getElem?_eq_none (by omega)] at hstar
      exact Option.noConfusion hstar
    have hc : pat[pi] = '*' := by
      have hx := List.getElem?_eq_getElem hpi
      rw [hx] at hstar
      exact Option.some.inj hstar
    rw [wmLoop.eq_def, dif_pos hsi, dif_pos hstar]
    rw [ih hle ⟨Nat.le_refl _, Nat.le_refl _, by omega, by simp [segOk]⟩]
    cases bp with
    | none =>
      simp only [wmTarget]
      rw [List.drop_eq_getElem_cons hpi, hc]
    | some ps =>
      obtain ⟨hp1, hp2, hd, hseg⟩ := hinv
      simp only [wmTarget]
      have hulen : ((pat.drop ps.1).take (pi - ps.1)).length = si - ps.2 := by
        have := segOk_length hseg
        simp only [List.length_take, List.length_drop] at this ⊢
        omega
      have hpat : pat.drop ps.1 =
          (pat.drop ps.1).take (pi - ps.1) ++ '*' :: pat.drop (pi + 1) := by
        conv_lhs => rw [← List.take_append_drop (pi - ps.1) (pat.drop ps.1)]
        congr 1
        rw [List.drop_drop]
        rw [show ps.1 + (pi - ps.1) = pi from by omega]
        rw [List.drop_eq_getElem_cons hpi, hc]
      rw [hpat]
      rw [glob_star_seg hseg (pat.drop (pi + 1)) (str.drop ps.2) (by rw [hulen])]
      rw [hulen, List.drop_drop]
      rw [show ps.2 + (si - ps.2) = si from by omega]
  | case2 pi si bp hsi hnstar hmt ih =>
    intro hle hinv
    have hsi' : si < str.length := hsi
    have hstrg : str[si]? = some str[si] := List.getElem?_eq_getElem hsi'
    obtain ⟨c, hcg, hcne, hok⟩ :
        ∃ c, pat[pi]? = some c ∧ c ≠ '*' ∧ charOk c str[si] = true := by
      rcases hmt with hq | he
      · refine ⟨'?', hq, by decide, ?_⟩
        simp [charOk]
      · rw [hstrg] at he
        refine ⟨str[si], he, ?_, ?_⟩
        · intro hcs
          rw [hcs] at he
          exact hnstar he
        · simp [charOk]
    have hpi : pi < pat.length := by
      by_contra hge
      rw [List.getElem?_eq_none (by omega)] at hcg
      exact Option.noConfusion hcg
    have hcel : pat[pi] = c := by
      have hx := List.getElem?_eq_getElem hpi
      rw [hx] at hcg
      exact Option.some.inj hcg
    rw [wmLoop.eq_def, dif_pos hsi, dif_neg hnstar, if_pos hmt]
    have hinv' : wmInv pat str (pi + 1) (si + 1) bp := by
      cases bp with
      | none => trivial
      | some ps =>
        obtain ⟨hp1, hp2, hd, hseg⟩ := hinv
        refine ⟨by omega, by omega, by omega, ?_⟩
        have htp : (pat.drop ps.1).take (pi + 1 - ps.1) =
            (pat.drop ps.1).take (pi - ps.1) ++ [c] := by
          rw [show pi + 1 - ps.1 = (pi - ps.1) + 1 from by omega, List.take_succ]
          congr 1
          rw [List.getElem?_drop]
          rw [show ps.1 + (pi - ps.1) = pi from by omega, hcg]
          rfl
        have hts : (str.drop ps.2).take (si + 1 - ps.2) =
            (str.drop ps.2).take (si - ps.2) ++ [str[si]] := by
          rw [show si + 1 - ps.2 = (si - ps.2) + 1 from by omega, List.take_succ]
          congr 1
          rw [List.getElem?_drop]
          rw [show ps.2 + (si - ps.2) = si from by omega, hstrg]
          rfl
        rw [htp, hts]
        exact segOk_snoc hseg hcne hok
    rw [ih (by omega) hinv']
    cases bp with
    | some ps => rfl
    | none =>
      simp only [wmTarget]
      rw [List.drop_eq_getElem_cons hpi, hcel, List.drop_eq_getElem_cons hsi']
      rw [globMatch.eq_6 c (pat.drop (pi + 1)) str[si] (str.drop (si + 1))
        (fun h => hcne h)]
      rw [hok, Bool.true_and]
  | case3 pi si hsi hnstar hnmt ps ih =>
    intro hle hinv
    obtain ⟨hp1, hp2, hd, hseg⟩ := hinv
    have hstrg : str[si]? = some str[si] := List.getElem?_eq_getElem hsi
    have hulen : ((pat.drop ps.1).take (pi - ps.1)).length = si - ps.2 := by
      have := segOk_length hseg
      simp only [List.length_take, List.length_drop] at this ⊢
      omega
    have hfail : globMatch (pat.drop pi) (str.drop si) = false := by
      cases hx : pat[pi]? with
      | none =>
        have hge : pat.length ≤ pi := by
          by_contra hlt
          rw [List.getElem?_eq_getElem (by omega)] at hx
          exact Option.noConfusion hx
        rw [List.drop_of_length_le hge, List.drop_eq_getElem_cons hsi]
        exact globMatch.eq_4 _ _
      | some c =>
        have hpi : pi < pat.length := by
          by_contra hge
          rw [List.getElem?_eq_none (by omega)] at hx
          exact Option.noConfusion hx
        have hcel : pat[pi] = c := by
          have h2 := List.getElem?_eq_getElem hpi
          rw [h2] at hx
          exact Option.some.inj hx
        have hcne : ¬ c = '*' := by
          intro h2
          rw [h2] at hx
          exact hnstar hx
        have hnq : ¬ c = '?' := by
          intro h2
          rw [h2] at hx
          exact hnmt (Or.inl hx)
        have hnsc : ¬ c = str[si] := by
          intro h2
          apply hnmt
          right
          rw [hx, hstrg, h2]
        rw [List.drop_eq_getElem_cons hpi, hcel, List.drop_eq_getElem_cons hsi]
        rw [globMatch.eq_6 c (pat.drop (pi + 1)) str[si] (str.drop (si + 1))
          (fun h => hcne h)]
        have hokf : charOk c str[si] = false := by
          simp [charOk, hnq, hnsc]
        rw [hokf, Bool.false_and]
    have hXfail : globMatch (pat.drop ps.1) (str.drop ps.2) = false := by
      have hpat : pat.drop ps.1 =
          (pat.drop ps.1).take (pi - ps.1) ++ pat.drop pi := by
        conv_lhs => rw [← List.take_append_drop (pi - ps.1) (pat.drop ps.1)]
        congr 1
        rw [List.drop_drop, show ps.1 + (pi - ps.1) = pi from by omega]
      rw [hpat]
      apply glob_no_k0 (segOk_no_star hseg)
      rw [hulen, List.drop_drop, show ps.2 + (si - ps.2) = si from by omega]
      exact hfail
    rw [wmLoop.eq_def, dif_pos hsi, dif_neg hnstar, if_neg hnmt]
    show wmLoop pat str ps.1 (ps.2 + 1) (some (ps.1, ps.2 + 1)) =
      wmTarget pat str pi si (some ps)
    rw [ih (by omega) ⟨Nat.le_refl _, Nat.le_refl _, by omega, by simp [segOk]⟩]
    simp only [wmTarget]
    have hsplit : str.drop ps.2 = str[ps.2] :: str.drop (ps.2 + 1) :=
      List.drop_eq_getElem_cons (by omega)
    rw [hsplit, globMatch.eq_5]
    rw [← hsplit, hXfail, Bool.false_or]
  | case4 pi si hsi hnstar hnmt =>
    intro hle _
    have hstrg : str[si]? = some str[si] := List.getElem?_eq_getElem hsi
    rw [wmLoop.eq_def, dif_pos hsi, dif_neg hnstar, if_neg hnmt]
    simp only [wmTarget]
    symm
    cases hx : pat[pi]? with
    | none =>
      have hge : pat.length ≤ pi := by
        by_contra hlt
        rw [List.getElem?_eq_getElem (by omega)] at hx
        exact Option.noConfusion hx
      rw [List.drop_of_length_le hge, List.drop_eq_getElem_cons hsi]
      exact globMatch.eq_4 _ _
    | some c =>
      have hpi : pi < pat.length := by
        by_contra hge
        rw [List.getElem?_eq_none (by omega)] at hx
        exact Option.noConfusion hx
      have hcel : pat[pi] = c := by
        have h2 := List.getElem?_eq_getElem hpi
        rw [h2] at hx
        exact Option.some.inj hx
      have hcne : ¬ c = '*' := by
        intro h2
        rw [h2] at hx
        exact hnstar hx
      have hnq : ¬ c = '?' := by
        intro h2
        rw [h2] at hx
        exact hnmt (Or.inl hx)
      have hnsc : ¬ c = str[si] := by
        intro h2
        apply hnmt
        right
        rw [hx, hstrg, h2]
      rw [List.drop_eq_getElem_cons hpi, hcel, List.drop_eq_getElem_cons hsi]
      rw [globMatch.eq_6 c (pat.drop (pi + 1)) str[si] (str.drop (si + 1))
        (fun h => hcne h)]
      have hokf : charOk c str[si] = false := by
        simp [charOk, hnq, hnsc]
      rw [hokf, Bool.false_and]
  | case5 pi si bp hsi =>
    intro hle hinv
    have hsieq : si = str.length := by omega
    rw [wmLoop.eq_def, dif_neg hsi]
    rw [skipStars_isNone pat (pat.length - pi) pi (Nat.le_refl _)]
    cases bp with
    | none =>
      simp only [wmTarget]
      rw [hsieq, List.drop_length, glob_nil]
    | some ps =>
      obtain ⟨hp1, hp2, hd, hseg⟩ := hinv
      simp only [wmTarget]
      have hpat : pat.drop ps.1 =
          (pat.drop ps.1).take (pi - ps.1) ++ pat.drop pi := by
        conv_lhs => rw [← List.take_append_drop (pi - ps.1) (pat.drop ps.1)]
        congr 1
        rw [List.drop_drop, show ps.1 + (pi - ps.1) = pi from by omega]
      rw [hpat]
      rw [glob_star_exact hseg (pat.drop pi)
        (by
          rw [List.take_drop, hsieq]
          rw [show ps.2 + (str.length - ps.2) = str.length from by omega]
          rw [List.take_length])]
end EditorDemo

namespace EditorDemo

/-- The source's two-pointer matcher realises the declarative glob language. -/
theorem wildcard_match_glob (pat str : List Char) :
    wildcard_match pat str = globMatch pat str := by
  unfold wildcard_match wildcard_match_one
  rw [wmLoop_eq_glob pat str 0 0 none (Nat.zero_le _) trivial]
  simp [wmTarget]

/-- The lowercased basename used by the project-search filter. -/
def pathBasename (path : List Char) : List Char :=
  match lastSlashIdx (to_lower path) with
  | some i => (to_lower path).drop (i + 1)
  | none => to_lower path

theorem excludeMatches_iff (path ex : List Char) :
    excludeMatches (to_lower path) (pathBasename path) ex = true ↔
      (if (to_lower ex).contains '*' ∨ (to_lower ex).contains '?' then
        globMatch (to_lower ex) (pathBasename path) = true ∨
        globMatch (to_lower ex) (to_lower path) = true
       else List.IsInfix (to_lower ex) (to_lower path)) := by
  unfold excludeMatches
  split
  · rename_i hcond
    rw [if_pos hcond]
    simp [wildcard_match_glob]
  · rename_i hcond
    rw [if_neg hcond]
    simp

theorem includeMatches_iff (path inc : List Char) :
    includeMatches (to_lower path) (pathBasename path) inc = true ↔
      (globMatch (to_lower inc) (pathBasename path) = true ∨
       globMatch (to_lower inc) (to_lower path) = true) := by
  unfold includeMatches
  simp [wildcard_match_glob]

/-- Counterexample to C7 as stated: with include list `"test"` (one
non-wildcard element) and no excludes, the path `"/a/mytest.c"` contains
`"test"` as a substring of its lowercased full path, so the claim admits it;
the code matches non-wildcard includes with `wildcard_match` (exact match
against basename or full path) and rejects it. -/
theorem path_filter_counterexample :
    List.IsInfix ('t' :: 'e' :: 's' :: 't' :: [])
      (to_lower ('/' :: 'a' :: '/' :: 'm' :: 'y' :: 't' :: 'e' :: 's' :: 't' :: '.' :: 'c' :: [])) ∧
    (('t' :: 'e' :: 's' :: 't' :: []) : List Char).contains '*' = false ∧
    (('t' :: 'e' :: 's' :: 't' :: []) : List Char).contains '?' = false ∧
    split_patterns ('t' :: 'e' :: 's' :: 't' :: []) = ('t' :: 'e' :: 's' :: 't' :: []) :: [] ∧
    path_matches_includes_excludes ('t' :: 'e' :: 's' :: 't' :: []) []
      ('/' :: 'a' :: '/' :: 'm' :: 'y' :: 't' :: 'e' :: 's' :: 't' :: '.' :: 'c' :: []) = false := by
  refine ⟨by decide, by decide, by decide, by decide, ?_⟩
  simp [path_matches_includes_excludes, split_patterns, splitGo, to_lower, lastSlashIdx,
    excludeMatches, includeMatches, wildcard_match, wildcard_match_one, wmLoop, skipStars]

/-- **C7** (amended): the filter admits a path iff no exclude element
matches it and either no includes are given or some include element
matches, where an exclude element containing `*`/`?` matches the lowercased
basename or full path under the glob language (`*` zero-or-more, `?` one),
a non-wildcard exclude matches as a substring of the lowercased full path,
and every include element — wildcard or not — is matched with the glob
matcher against the lowercased basename or full path (a non-wildcard
include therefore requires an exact match, not a substring). -/
theorem path_filter_spec (incs excs path : List Char) :
    path_matches_includes_excludes incs excs path = true ↔
      ((∀ ex ∈ split_patterns excs,
        ¬ (if (to_lower ex).contains '*' ∨ (to_lower ex).contains '?' then
            globMatch (to_lower ex) (pathBasename path) = true ∨
            globMatch (to_lower ex) (to_lower path) = true
           else List.IsInfix (to_lower ex) (to_lower path))) ∧
       (split_patterns incs = [] ∨
        ∃ inc ∈ split_patterns incs,
          globMatch (to_lower inc) (pathBasename path) = true ∨
          globMatch (to_lower inc) (to_lower path) = true)) := by
  show (if (split_patterns excs).any (excludeMatches (to_lower path) (pathBasename path))
      then false
      else (split_patterns incs).isEmpty ||
        (split_patterns incs).any (includeMatches (to_lower path) (pathBasename path))) =
      true ↔ _
  by_cases hex : (split_patterns excs).any
      (excludeMatches (to_lower path) (pathBasename path)) = true
  · rw [if_pos hex]
    simp only [Bool.false_eq_true, false_iff]
    intro ⟨hall, _⟩
    obtain ⟨ex, hmem, hm⟩ := List.any_eq_true.mp hex
    exact hall ex hmem ((excludeMatches_iff path ex).mp hm)
  · rw [if_neg hex]
    constructor
    · intro h
      refine ⟨?_, ?_⟩
      · intro ex hmem hif
        exact hex (List.any_eq_true.mpr ⟨ex, hmem, (excludeMatches_iff path ex).mpr hif⟩)
      · rcases Bool.or_eq_true_iff.mp h with h | h
        · exact Or.inl (List.isEmpty_iff.mp h)
        · obtain ⟨inc, hmem, hm⟩ := List.any_eq_true.mp h
          exact Or.inr ⟨inc, hmem, (includeMatches_iff path inc).mp hm⟩
    · rintro ⟨_, hinc⟩
      apply Bool.or_eq_true_iff.mpr
      rcases hinc with h | ⟨inc, hmem, hm⟩
      · exact Or.inl (List.isEmpty_iff.mpr h)
      · exact Or.inr (List.any_eq_true.mpr ⟨inc, hmem, (includeMatches_iff path inc).mpr hm⟩)

/-- Witness for C7 (amended): include `"*.c"` admits `"/a/b.c"`. -/
theorem path_filter_spec_witness :
    path_matches_includes_excludes ('*' :: '.' :: 'c' :: []) []
      ('/' :: 'a' :: '/' :: 'b' :: '.' :: 'c' :: []) = true := by
  apply (path_filter_spec ('*' :: '.' :: 'c' :: []) []
    ('/' :: 'a' :: '/' :: 'b' :: '.' :: 'c' :: [])).mpr
  refine ⟨by decide, Or.inr ⟨'*' :: '.' :: 'c' :: [], by decide, Or.inl ?_⟩⟩
  have hbase : pathBasename ('/' :: 'a' :: '/' :: 'b' :: '.' :: 'c' :: []) =
      ('b' :: '.' :: 'c' :: []) := by decide
  rw [hbase]
  show globMatch ('*' :: '.' :: 'c' :: []) ('b' :: '.' :: 'c' :: []) = true
  simp [globMatch, charOk]

end EditorDemo

namespace EditorDemo

/-- One step of the descending insertion modelling
`std::sort(..., std::greater<size_t>())`. -/
def sortDescInsert (x : Nat) : List Nat → List Nat
  | [] => [x]
  | y :: ys => if x ≥ y then x :: y :: ys else y :: sortDescInsert x ys

/-- Sort a cursor list in descending order. -/
def sortDesc (l : List Nat) : List Nat := l.foldr sortDescInsert []

/-- `std::unique` on the sorted list: drop adjacent duplicates. -/
def dedupAdjacent : List Nat → List Nat
  | [] => []
  | [x] => [x]
  | x :: y :: rest =>
    if x = y then dedupAdjacent (y :: rest) else x :: dedupAdjacent (y :: rest)

/-- The multi-cursor branch of `VelocityEditor::on_char`
(gui_main.cpp:1279-1298): gather `{primary} ∪ extras`, sort descending,
deduplicate, execute one `InsertCommand` per cursor through the undo
manager, then advance every cursor by one.  Returns the new editor state,
the new primary cursor and the new extra cursors. -/
def onCharMulti (st : EditorState) (cursor_pos : Nat) (extra_cursors : List Nat)
    (c : Char) : EditorState × Nat × List Nat :=
  let all_cursors := dedupAdjacent (sortDesc (extra_cursors ++ [cursor_pos]))
  let st2 := all_cursors.foldl (fun s pos => s.execute (Cmd.insertCmd pos [c])) st
  (st2, cursor_pos + 1, extra_cursors.map (fun p => p + 1))

/-- Plain-text semantics of inserting one character at each position in
sequence. -/
def multiInsertPlain (positions : List Nat) (c : Char) (t : List Char) : List Char :=
  positions.foldl (fun acc p => acc.take p ++ [c] ++ acc.drop p) t

/-- Counterexample to C6 as stated: on `"ab"` with primary cursor 1 and an
extra cursor at 0, typing `x` executes two separate `InsertCommand`s (no
composite command exists in the code), so a single `undo()` reverts only the
insertion at cursor 0, leaving `"axb"` rather than restoring `"ab"`. -/
theorem multi_cursor_counterexample :
    ((onCharMulti ⟨PieceTable.ofString ('a' :: 'b' :: []), UndoManager.init 1000⟩
        1 (0 :: []) 'x').1.undo).doc.docText = ('a' :: 'x' :: 'b' :: []) ∧
    ((onCharMulti ⟨PieceTable.ofString ('a' :: 'b' :: []), UndoManager.init 1000⟩
        1 (0 :: []) 'x').1.undo).doc.docText ≠
      (PieceTable.ofString ('a' :: 'b' :: [])).docText := by
  decide

end EditorDemo

namespace EditorDemo

theorem mem_sortDescInsert {x a : Nat} {l : List Nat} :
    x ∈ sortDescInsert a l ↔ x = a ∨ x ∈ l := by
  induction l with
  | nil => simp [sortDescInsert]
  | cons y ys ih =>
    unfold sortDescInsert
    split
    · simp
    · simp only [List.mem_cons, ih]
      tauto

theorem mem_sortDesc {x : Nat} {l : List Nat} : x ∈ sortDesc l ↔ x ∈ l := by
  induction l with
  | nil => simp [sortDesc]
  | cons y ys ih =>
    unfold sortDesc at ih ⊢
    rw [List.foldr_cons, mem_sortDescInsert, ih]
    simp

theorem mem_dedupAdjacent {x : Nat} : ∀ {l : List Nat}, x ∈ dedupAdjacent l → x ∈ l
  | [], h => by simpa [dedupAdjacent] using h
  | [y], h => by simpa [dedupAdjacent] using h
  | y :: z :: rest, h => by
    unfold dedupAdjacent at h
    split at h
    · exact List.mem_cons_of_mem _ (mem_dedupAdjacent h)
    · rcases List.mem_cons.mp h with rfl | h
      · exact List.mem_cons_self _ _
      · exact List.mem_cons_of_mem _ (mem_dedupAdjacent h)

theorem sortDescInsert_ne_nil (a : Nat) (l : List Nat) : sortDescInsert a l ≠ [] := by
  cases l with
  | nil => simp [sortDescInsert]
  | cons y ys =>
    unfold sortDescInsert
    split <;> simp

theorem sortDesc_ne_nil {l : List Nat} (h : l ≠ []) : sortDesc l ≠ [] := by
  cases l with
  | nil => exact absurd rfl h
  | cons y ys =>
    unfold sortDesc
    rw [List.foldr_cons]
    exact sortDescInsert_ne_nil _ _

theorem dedupAdjacent_ne_nil : ∀ {l : List Nat}, l ≠ [] → dedupAdjacent l ≠ []
  | [], h => absurd rfl h
  | [x], _ => by simp [dedupAdjacent]
  | x :: y :: rest, _ => by
    unfold dedupAdjacent
    split
    · exact dedupAdjacent_ne_nil (by simp)
    · simp

theorem fold_insert_text (c : Char) : ∀ (ps : List Nat) (st : EditorState),
    st.doc.WF → 1 ≤ st.mgr.max_depth → (∀ p ∈ ps, p ≤ st.doc.get_total_length) →
    (ps.foldl (fun s pos => s.execute (Cmd.insertCmd pos [c])) st).doc.docText =
      multiInsertPlain ps c st.doc.docText ∧
    (ps.foldl (fun s pos => s.execute (Cmd.insertCmd pos [c])) st).doc.WF ∧
    (ps.foldl (fun s pos => s.execute (Cmd.insertCmd pos [c])) st).mgr.max_depth =
      st.mgr.max_depth ∧
    (ps.foldl (fun s pos => s.execute (Cmd.insertCmd pos [c])) st).doc.get_total_length =
      st.doc.get_total_length + ps.length := by
  intro ps
  induction ps with
  | nil =>
    intro st hwf _ _
    exact ⟨rfl, hwf, rfl, rfl⟩
  | cons p rest ih =>
    intro st hwf hd hin
    have hp : p ≤ st.doc.get_total_length := hin p (by simp)
    have hdoc1 : (st.execute (Cmd.insertCmd p [c])).doc = st.doc.insert p [c] := rfl
    have hmd1 : (st.execute (Cmd.insertCmd p [c])).mgr.max_depth = st.mgr.max_depth := rfl
    have hwf1 : (st.execute (Cmd.insertCmd p [c])).doc.WF := by
      rw [hdoc1]
      exact insert_WF hwf p [c]
    have htext1 : (st.execute (Cmd.insertCmd p [c])).doc.docText =
        st.doc.docText.take p ++ [c] ++ st.doc.docText.drop p := by
      rw [hdoc1]
      exact insert_docText hwf [c] hp
    have hlen1 : (st.execute (Cmd.insertCmd p [c])).doc.get_total_length =
        st.doc.get_total_length + 1 := by
      rw [← docText_length hwf1, htext1]
      simp only [List.length_append, List.length_take, List.length_drop,
        List.length_singleton]
      have := docText_length hwf
      omega
    have hin1 : ∀ q ∈ rest, q ≤ (st.execute (Cmd.insertCmd p [c])).doc.get_total_length := by
      intro q hq
      rw [hlen1]
      have := hin q (List.mem_cons_of_mem _ hq)
      omega
    obtain ⟨h1, h2, h3, h4⟩ := ih (st.execute (Cmd.insertCmd p [c])) hwf1
      (by rw [hmd1]; exact hd) hin1
    rw [List.foldl_cons]
    refine ⟨?_, h2, by rw [h3, hmd1], by rw [h4, hlen1, List.length_cons]; omega⟩
    rw [h1, htext1]
    rfl

/-- **C6** (amended): with extra cursors present, typing one character
executes one separate `InsertCommand` per distinct cursor position — from
highest to lowest, so each child's position is still valid — on the undo
stack (no composite command exists), the document becomes the original text
with the character spliced in at every distinct cursor position, every
cursor (primary and extra) advances by exactly one, and a single `undo()`
reverts only the lowest cursor's insertion rather than the whole action. -/
theorem multi_cursor_insert_spec (st : EditorState) (hwf : st.doc.WF)
    (cursor_pos : Nat) (extra_cursors : List Nat) (c : Char)
    (hd : 1 ≤ st.mgr.max_depth)
    (hc : cursor_pos ≤ st.doc.get_total_length)
    (he : ∀ p ∈ extra_cursors, p ≤ st.doc.get_total_length) :
    (onCharMulti st cursor_pos extra_cursors c).2.1 = cursor_pos + 1 ∧
    (onCharMulti st cursor_pos extra_cursors c).2.2 =
      extra_cursors.map (fun p => p + 1) ∧
    (onCharMulti st cursor_pos extra_cursors c).1.doc.docText =
      multiInsertPlain (dedupAdjacent (sortDesc (extra_cursors ++ [cursor_pos]))) c
        st.doc.docText ∧
    ((onCharMulti st cursor_pos extra_cursors c).1.undo).doc.docText =
      multiInsertPlain
        (dedupAdjacent (sortDesc (extra_cursors ++ [cursor_pos]))).dropLast c
        st.doc.docText := by
  have hball : ∀ p ∈ dedupAdjacent (sortDesc (extra_cursors ++ [cursor_pos])),
      p ≤ st.doc.get_total_length := by
    intro p hp
    have hmem := mem_sortDesc.mp (mem_dedupAdjacent hp)
    rcases List.mem_append.mp hmem with hm | hm
    · exact he p hm
    · simp only [List.mem_singleton] at hm
      subst hm
      exact hc
  have hne : dedupAdjacent (sortDesc (extra_cursors ++ [cursor_pos])) ≠ [] :=
    dedupAdjacent_ne_nil (sortDesc_ne_nil (by simp))
  refine ⟨rfl, rfl, ?_, ?_⟩
  · exact (fold_insert_text c _ st hwf hd hball).1
  · -- split the fold at its final (lowest-position) command
    set D := dedupAdjacent (sortDesc (extra_cursors ++ [cursor_pos])) with hD
    have hsplit : D = D.dropLast ++ [D.getLast hne] :=
      (List.dropLast_append_getLast hne).symm
    have hfold : (onCharMulti st cursor_pos extra_cursors c).1 =
        (D.dropLast.foldl (fun s pos => s.execute (Cmd.insertCmd pos [c])) st).execute
          (Cmd.insertCmd (D.getLast hne) [c]) := by
      show D.foldl (fun s pos => s.execute (Cmd.insertCmd pos [c])) st = _
      conv_lhs => rw [hsplit]
      rw [List.foldl_append]
      rfl
    obtain ⟨h1, h2, h3, h4⟩ := fold_insert_text c D.dropLast st hwf hd
      (fun p hp => hball p (by rw [hsplit]; exact List.mem_append_left _ hp))
    have hlastmem : D.getLast hne ∈ D := List.getLast_mem hne
    have hposlast : (Cmd.insertCmd (D.getLast hne) [c]).position ≤
        (D.dropLast.foldl (fun s pos => s.execute (Cmd.insertCmd pos [c])) st).doc.get_total_length := by
      simp only [Cmd.position]
      rw [h4]
      have := hball _ hlastmem
      omega
    obtain ⟨hundo, _⟩ := execute_undo_redo_docText
      (D.dropLast.foldl (fun s pos => s.execute (Cmd.insertCmd pos [c])) st)
      h2 (Cmd.insertCmd (D.getLast hne) [c]) hposlast (by rw [h3]; exact hd)
    rw [hfold, hundo, h1]

end EditorDemo

namespace EditorDemo

/-- Witness for the amended C6 on `"ab"`, primary cursor 1, extra cursor 0,
typing `x`. -/
theorem multi_cursor_insert_spec_witness :
    ((PieceTable.ofString ('a' :: 'b' :: [])).WF ∧
     1 ≤ (UndoManager.init 1000).max_depth ∧
     1 ≤ (PieceTable.ofString ('a' :: 'b' :: [])).get_total_length ∧
     (∀ p ∈ (0 :: ([] : List Nat)),
        p ≤ (PieceTable.ofString ('a' :: 'b' :: [])).get_total_length)) ∧
    ((onCharMulti ⟨PieceTable.ofString ('a' :: 'b' :: []), UndoManager.init 1000⟩
        1 (0 :: []) 'x').2.1 = 1 + 1 ∧
     (onCharMulti ⟨PieceTable.ofString ('a' :: 'b' :: []), UndoManager.init 1000⟩
        1 (0 :: []) 'x').2.2 = (0 :: ([] : List Nat)).map (fun p => p + 1) ∧
     (onCharMulti ⟨PieceTable.ofString ('a' :: 'b' :: []), UndoManager.init 1000⟩
        1 (0 :: []) 'x').1.doc.docText =
       multiInsertPlain (dedupAdjacent (sortDesc ((0 :: []) ++ [1]))) 'x'
         (PieceTable.ofString ('a' :: 'b' :: [])).docText ∧
     ((onCharMulti ⟨PieceTable.ofString ('a' :: 'b' :: []), UndoManager.init 1000⟩
        1 (0 :: []) 'x').1.undo).doc.docText =
       multiInsertPlain (dedupAdjacent (sortDesc ((0 :: []) ++ [1]))).dropLast 'x'
         (PieceTable.ofString ('a' :: 'b' :: [])).docText) :=
  ⟨⟨by decide, by decide, by decide, by decide⟩,
   multi_cursor_insert_spec
     ⟨PieceTable.ofString ('a' :: 'b' :: []), UndoManager.init 1000⟩
     (by decide) 1 (0 :: []) 'x' (by decide) (by decide) (by decide)⟩

end EditorDemo
